import Mathlib

/-!
Verification of the rodin recording pipeline: a shallow embedding of the
durable audio queue (`src/rodin/audio_queue.py`), the transcription stats
store (`src/rodin/stats.py`), the personal dictionary and snippet expander
(`src/whisper_flow/dictionary.py`, `snippets.py`) and the voice command
processor (`src/whisper_flow/voice_commands.py`), together with theorems
settling the specification's claims about them.

Conventions of the embedding
* Byte strings are `List Nat`; text is `String` (compared, where the source
  compares Python `str` or SQLite TEXT, by byte-lexicographic order `lexLt`,
  which agrees with Python/SQLite comparison on ASCII data).
* The queue directory is a pair of association lists (`id ↦ audio bytes`,
  `id ↦ metadata`), standing for the `*.wav` / `*.json` file pairs.
* Wall-clock reads (`datetime.now()`) become explicit `Timestamp` parameters.
* Exceptions raised by a user-supplied `process_fn` are modelled by a third
  result value `FnRes.raised`; the queue code catches them.
-/

namespace Rodin

/-! ### Byte-lexicographic order on strings (Python `str` / `sorted`) -/

/-- Strict lexicographic order on char lists, as Python compares strings
(codepoint by codepoint, shorter prefix first). -/
def lexLt : List Char → List Char → Bool
  | _, [] => false
  | [], _ :: _ => true
  | a :: as, b :: bs =>
    if a < b then true
    else if b < a then false
    else lexLt as bs

/-- Strict order on `String` via `lexLt` on the underlying characters. -/
def strLt (a b : String) : Bool := lexLt a.data b.data

/-- Non-strict companion of `strLt`. -/
def strLe (a b : String) : Bool := !(strLt b a)

/-! ### Recording ids (`AudioQueue.save_recording`)

`recording_id = now.strftime("%Y%m%d_%H%M%S_%f")`: the capture timestamp
rendered as fixed-width zero-padded decimal fields. -/

/-- A wall-clock instant at microsecond resolution, the components
`datetime.now()` exposes to `strftime`. -/
structure Timestamp where
  year : Nat
  month : Nat
  day : Nat
  hour : Nat
  minute : Nat
  second : Nat
  micro : Nat
deriving DecidableEq, Repr

/-- Field ranges `datetime` guarantees (four-digit years). -/
def Timestamp.valid (t : Timestamp) : Prop :=
  1000 ≤ t.year ∧ t.year ≤ 9999 ∧ 1 ≤ t.month ∧ t.month ≤ 12 ∧
  1 ≤ t.day ∧ t.day ≤ 31 ∧ t.hour ≤ 23 ∧ t.minute ≤ 59 ∧
  t.second ≤ 59 ∧ t.micro ≤ 999999

instance (t : Timestamp) : Decidable t.valid := by
  unfold Timestamp.valid; infer_instance

/-- Collapse a timestamp to one number so that `key a < key b` is exactly
"a is chronologically earlier than b" (fields are within their ranges). -/
def Timestamp.key (t : Timestamp) : Nat :=
  ((((((t.year * 100 + t.month) * 100 + t.day) * 100 + t.hour) * 100 +
      t.minute) * 100 + t.second) * 1000000 + t.micro)

/-- Chronological strict order on timestamps. -/
def Timestamp.chronLt (a b : Timestamp) : Prop := a.key < b.key

instance (a b : Timestamp) : Decidable (a.chronLt b) := by
  unfold Timestamp.chronLt; infer_instance

/-- The decimal digit character for `n % 10`. -/
def digitChar : Nat → Char
  | 0 => '0' | 1 => '1' | 2 => '2' | 3 => '3' | 4 => '4'
  | 5 => '5' | 6 => '6' | 7 => '7' | 8 => '8' | _ => '9'

/-- `n` rendered in exactly `w` decimal digits, zero padded (strftime's
fixed-width numeric fields). -/
def padDigits : Nat → Nat → List Char
  | 0, _ => []
  | w + 1, n => padDigits w (n / 10) ++ [digitChar (n % 10)]

/-- `now.strftime("%Y%m%d_%H%M%S_%f")` from `save_recording`. -/
def recordingId (t : Timestamp) : List Char :=
  padDigits 4 t.year ++ padDigits 2 t.month ++ padDigits 2 t.day ++ ['_'] ++
  padDigits 2 t.hour ++ padDigits 2 t.minute ++ padDigits 2 t.second ++ ['_'] ++
  padDigits 6 t.micro

/-- The id as a `String`. -/
def recordingIdStr (t : Timestamp) : String := String.mk (recordingId t)

/-! ### The durable queue directory (`AudioQueue`)

The queue directory holds pairs of files `<id>.wav` / `<id>.json`.  We model
it as two association lists keyed by the recording id.  `from_metadata_file`
never fails in the model (metadata is well-typed by construction). -/

/-- An opaque audio payload (`bytes`). -/
abbrev Bytes := List Nat

/-- The parsed content of an `<id>.json` metadata file. -/
structure Metadata where
  timestamp : Timestamp
  app_bundle_id : Option String
  app_name : Option String
  preset : Option String
deriving DecidableEq, Repr

/-- `PendingRecording` (the dataclass); the two paths are determined by the
id, so only the id is kept. -/
structure PendingRecording where
  id : String
  timestamp : Timestamp
  app_bundle_id : Option String
  app_name : Option String
  preset : Option String
deriving DecidableEq, Repr

/-- Contents of the queue directory: `id ↦ *.wav` and `id ↦ *.json`. -/
structure QueueDir where
  wavs : List (String × Bytes)
  metas : List (String × Metadata)
deriving DecidableEq, Repr

/-- Delete a file (`Path.unlink(missing_ok=True)`). -/
def eraseKey (k : String) (l : List (String × α)) : List (String × α) :=
  l.filter (fun p => p.1 != k)

/-- Write a file, overwriting any previous content. -/
def setKey (k : String) (v : α) (l : List (String × α)) : List (String × α) :=
  eraseKey k l ++ [(k, v)]

/-- `PendingRecording.from_metadata_file`: id from the file stem, the other
fields from the parsed json. -/
def PendingRecording.fromMeta (id : String) (m : Metadata) : PendingRecording :=
  ⟨id, m.timestamp, m.app_bundle_id, m.app_name, m.preset⟩

/-- `AudioQueue.save_recording`: id from the clock, audio written first,
then metadata; returns the in-memory record. -/
def saveRecording (d : QueueDir) (now : Timestamp) (audio : Bytes)
    (bid an pr : Option String) : QueueDir × PendingRecording :=
  let rid := recordingIdStr now
  ({ wavs := setKey rid audio d.wavs,
     metas := setKey rid ⟨now, bid, an, pr⟩ d.metas },
   ⟨rid, now, bid, an, pr⟩)

/-- `AudioQueue.mark_completed`: best-effort deletion of both artifacts. -/
def markCompletedDir (d : QueueDir) (id : String) : QueueDir :=
  ⟨eraseKey id d.wavs, eraseKey id d.metas⟩

/-- The sort key order `sorted(queue_dir.glob("*.json"))` induces on ids
(for the fixed-width ids of this queue, sorting the `<id>.json` paths and
sorting the ids agree). -/
def idLe (a b : String) : Prop := strLe a b = true

instance : DecidableRel idLe := fun a b => by unfold idLe; infer_instance

/-- One iteration of the `get_pending` listing loop: load the metadata,
keep the entry if its audio exists, otherwise delete the orphaned
metadata file. -/
def gpStep (wavs : List (String × Bytes))
    (acc : List (String × Metadata) × List PendingRecording) (id : String) :
    List (String × Metadata) × List PendingRecording :=
  match List.lookup id acc.1 with
  | none => acc
  | some m =>
    if (List.lookup id wavs).isSome then
      (acc.1, acc.2 ++ [PendingRecording.fromMeta id m])
    else
      (eraseKey id acc.1, acc.2)

/-- `AudioQueue.get_pending`: iterate the sorted metadata files, collect
entries whose audio exists, delete orphans; returns the updated directory
and the listing. -/
def getPending (d : QueueDir) : QueueDir × List PendingRecording :=
  let ids := List.insertionSort idLe (d.metas.map Prod.fst)
  let r := ids.foldl (gpStep d.wavs) (d.metas, [])
  (⟨d.wavs, r.1⟩, r.2)

/-- Outcome of one `process_fn(recording, audio)` call: returned `True`,
returned a falsy value, or raised an exception. -/
inductive FnRes where
  | success
  | failure
  | raised
deriving DecidableEq, Repr

/-- The in-memory state of one `AudioQueue` object: its directory plus the
`_is_processing` flag and `_stop_event`. -/
structure QueueState where
  dir : QueueDir
  isProcessing : Bool
  stopEvent : Bool

/-- A fresh `AudioQueue(queue_dir)` over an existing directory: `mkdir` is a
no-op, the lock and stop event start clear. -/
def freshQueue (d : QueueDir) : QueueState := ⟨d, false, false⟩

/-- Observable outcome of a sweep: final directory, the returned count, the
ids `process_fn` was invoked on, and the `on_progress` calls. -/
structure SweepOut where
  dir : QueueDir
  processed : Nat
  calls : List String
  progress : List (Nat × Nat)

/-- The `for i, recording in enumerate(pending)` loop of `process_pending`
(with the stop event clear): read the audio (a missing file raises, caught
by the `except` arm), call `process_fn`, delete on success, keep on failure
or exception, then report progress. -/
def sweep (fn : PendingRecording → Bytes → FnRes) (total : Nat) :
    QueueDir → Nat → List PendingRecording → SweepOut
  | d, _, [] => ⟨d, 0, [], []⟩
  | d, i, r :: rest =>
    match List.lookup r.id d.wavs with
    | none =>
      let t := sweep fn total d (i + 1) rest
      ⟨t.dir, t.processed, t.calls, (i + 1, total) :: t.progress⟩
    | some bytes =>
      match fn r bytes with
      | .success =>
        let t := sweep fn total (markCompletedDir d r.id) (i + 1) rest
        ⟨t.dir, t.processed + 1, r.id :: t.calls, (i + 1, total) :: t.progress⟩
      | _ =>
        let t := sweep fn total d (i + 1) rest
        ⟨t.dir, t.processed, r.id :: t.calls, (i + 1, total) :: t.progress⟩

/-- Result of `process_pending`: the queue state on return plus the
returned count and the observable callback activity. -/
structure ProcessOut where
  state : QueueState
  count : Nat
  calls : List String
  progress : List (Nat × Nat)

/-- `AudioQueue.process_pending`: single-flight guard, then the sweep; the
`finally` clause clears `_is_processing` on every exit path.  A set stop
event makes the loop break before its first item. -/
def processPending (s : QueueState)
    (fn : PendingRecording → Bytes → FnRes) : ProcessOut :=
  if s.isProcessing then ⟨s, 0, [], []⟩
  else
    let gp := getPending s.dir
    let total := gp.2.length
    if s.stopEvent then
      ⟨⟨gp.1, false, s.stopEvent⟩, 0, [], []⟩
    else
      let out := sweep fn total gp.1 0 gp.2
      ⟨⟨out.dir, false, s.stopEvent⟩, out.processed, out.calls, out.progress⟩

/-- The queue operations a client can interleave between a save and a later
listing (claim C1): further saves, listings, completions, sweeps. -/
inductive QOp where
  | save (now : Timestamp) (audio : Bytes) (bid an pr : Option String)
  | listPending
  | complete (id : String)
  | process (fn : PendingRecording → Bytes → FnRes)

/-- Effect of one operation on the queue state. -/
def applyOp (s : QueueState) : QOp → QueueState
  | .save now audio bid an pr =>
    { s with dir := (saveRecording s.dir now audio bid an pr).1 }
  | .listPending => { s with dir := (getPending s.dir).1 }
  | .complete id => { s with dir := markCompletedDir s.dir id }
  | .process fn => (processPending s fn).state

/-- Run a sequence of operations. -/
def runOps (s : QueueState) (ops : List QOp) : QueueState := ops.foldl applyOp s

/-- Operation `op` does not delete recording `rid`: it is not a
`mark_completed` of `rid`, a save under the same id (same clock reading), or
a sweep whose `process_fn` succeeds on `rid`. -/
def sparesId (rid : String) : QOp → Prop
  | .save now _ _ _ _ => recordingIdStr now ≠ rid
  | .listPending => True
  | .complete id => id ≠ rid
  | .process fn => ∀ r b, r.id = rid → fn r b ≠ .success

end Rodin

namespace Rodin

/-! ### Order lemmas -/

theorem lexLt_irrefl (xs : List Char) : lexLt xs xs = false := by
  induction xs with
  | nil => rfl
  | cons a as ih => simp [lexLt, lt_irrefl, ih]

theorem lexLt_ne {xs ys : List Char} (h : lexLt xs ys = true) : xs ≠ ys := by
  intro he; subst he; rw [lexLt_irrefl] at h; exact absurd h (by simp)

theorem lexLt_append_same (xs as bs : List Char) :
    lexLt (xs ++ as) (xs ++ bs) = lexLt as bs := by
  induction xs with
  | nil => rfl
  | cons a xs ih => simp [lexLt, lt_irrefl, ih]

theorem lexLt_append_of_lt {xs ys : List Char} (as bs : List Char)
    (hlen : xs.length = ys.length) (h : lexLt xs ys = true) :
    lexLt (xs ++ as) (ys ++ bs) = true := by
  induction xs generalizing ys with
  | nil =>
    cases ys with
    | nil => rw [lexLt_irrefl] at h; exact absurd h (by simp)
    | cons b bs' => simp at hlen
  | cons a xs ih =>
    cases ys with
    | nil => simp at hlen
    | cons b ys =>
      simp only [List.length_cons, Nat.succ_inj] at hlen
      simp only [lexLt, List.cons_append] at h ⊢
      by_cases hab : a < b
      · simp [hab]
      · by_cases hba : b < a
        · simp [hab, hba] at h
        · simp only [hab, hba, if_false] at h ⊢
          exact ih hlen h

theorem padDigits_length (w n : Nat) : (padDigits w n).length = w := by
  induction w generalizing n with
  | zero => rfl
  | succ w ih => simp [padDigits, ih]

theorem digitChar_lt {a b : Nat} (hab : a < b) (hb : b < 10) :
    digitChar a < digitChar b := by
  interval_cases b <;> interval_cases a <;> decide

theorem padDigits_lt {w a b : Nat} (hab : a < b) (hb : b < 10 ^ w) :
    lexLt (padDigits w a) (padDigits w b) = true := by
  induction w generalizing a b with
  | zero => omega
  | succ w ih =>
    have hsplit : a / 10 < b / 10 ∨ (a / 10 = b / 10 ∧ a % 10 < b % 10) := by
      omega
    have hb10 : b / 10 < 10 ^ w := by
      rw [pow_succ] at hb
      omega
    rcases hsplit with hq | ⟨hq, hr⟩
    · exact lexLt_append_of_lt _ _
        (by rw [padDigits_length, padDigits_length]) (ih hq hb10)
    · show lexLt (padDigits w (a / 10) ++ [digitChar (a % 10)])
        (padDigits w (b / 10) ++ [digitChar (b % 10)]) = true
      rw [hq, lexLt_append_same]
      have : digitChar (a % 10) < digitChar (b % 10) :=
        digitChar_lt hr (by omega)
      simp [lexLt, this]

theorem padDigits_congr {w a b : Nat} (h : a = b) :
    padDigits w a = padDigits w b := by rw [h]

/-- Chronologically ordered valid timestamps yield lexicographically
ordered ids. -/
theorem recordingId_mono {a b : Timestamp} (ha : a.valid) (hb : b.valid)
    (h : a.chronLt b) : lexLt (recordingId a) (recordingId b) = true := by
  obtain ⟨ha1, ha2, ha3, ha4, ha5, ha6, ha7, ha8, ha9, ha10⟩ := ha
  obtain ⟨hb1, hb2, hb3, hb4, hb5, hb6, hb7, hb8, hb9, hb10⟩ := hb
  have hkey : a.key < b.key := h
  unfold Timestamp.key at hkey
  simp only [recordingId, List.append_assoc]
  have hcases :
      a.year < b.year ∨ (a.year = b.year ∧ (a.month < b.month ∨
        (a.month = b.month ∧ (a.day < b.day ∨ (a.day = b.day ∧
          (a.hour < b.hour ∨ (a.hour = b.hour ∧ (a.minute < b.minute ∨
            (a.minute = b.minute ∧ (a.second < b.second ∨
              (a.second = b.second ∧ a.micro < b.micro))))))))))) := by
    omega
  rcases hcases with hy | ⟨hy, hrest⟩
  · exact lexLt_append_of_lt _ _ (by simp [padDigits_length])
      (padDigits_lt hy (by norm_num; omega))
  · rw [hy, lexLt_append_same]
    rcases hrest with hm | ⟨hm, hrest⟩
    · exact lexLt_append_of_lt _ _ (by simp [padDigits_length])
        (padDigits_lt hm (by norm_num; omega))
    · rw [hm, lexLt_append_same]
      rcases hrest with hd | ⟨hd, hrest⟩
      · exact lexLt_append_of_lt _ _ (by simp [padDigits_length])
          (padDigits_lt hd (by norm_num; omega))
      · rw [hd, lexLt_append_same, lexLt_append_same]
        rcases hrest with hh | ⟨hh, hrest⟩
        · exact lexLt_append_of_lt _ _ (by simp [padDigits_length])
            (padDigits_lt hh (by norm_num; omega))
        · rw [hh, lexLt_append_same]
          rcases hrest with hmi | ⟨hmi, hrest⟩
          · exact lexLt_append_of_lt _ _ (by simp [padDigits_length])
              (padDigits_lt hmi (by norm_num; omega))
          · rw [hmi, lexLt_append_same]
            rcases hrest with hs | ⟨hs, hu⟩
            · exact lexLt_append_of_lt _ _ (by simp [padDigits_length])
                (padDigits_lt hs (by norm_num; omega))
            · rw [hs, lexLt_append_same, lexLt_append_same]
              exact padDigits_lt hu (by norm_num; omega)

/-- Distinct valid timestamps yield distinct ids. -/
theorem recordingId_inj {a b : Timestamp} (ha : a.valid) (hb : b.valid)
    (hne : a ≠ b) : recordingId a ≠ recordingId b := by
  rcases Nat.lt_trichotomy a.key b.key with hlt | heq | hgt
  · exact lexLt_ne (recordingId_mono ha hb hlt)
  · exfalso; apply hne
    obtain ⟨ha1, ha2, ha3, ha4, ha5, ha6, ha7, ha8, ha9, ha10⟩ := ha
    obtain ⟨hb1, hb2, hb3, hb4, hb5, hb6, hb7, hb8, hb9, hb10⟩ := hb
    unfold Timestamp.key at heq
    cases a; cases b
    simp only [Timestamp.mk.injEq]
    simp only at *
    omega
  · exact fun he => lexLt_ne (recordingId_mono hb ha hgt) he.symm

end Rodin

namespace Rodin

/-! ### Association-list lemmas -/

theorem lookup_eraseKey_self (k : String) (l : List (String × α)) :
    List.lookup k (eraseKey k l) = none := by
  induction l with
  | nil => rfl
  | cons p l ih =>
    by_cases h : p.1 = k
    · simpa [eraseKey, List.filter_cons, h] using ih
    · have hb : (p.1 != k) = true := by simp [h]
      have hk : (k == p.1) = false := by simp [Ne.symm h]
      simpa [eraseKey, List.filter_cons, hb, List.lookup, hk] using ih

theorem str_beq_false {a b : String} (h : a ≠ b) : (a == b) = false := by
  cases hb : a == b
  · rfl
  · exact absurd (eq_of_beq hb) h

theorem lookup_eraseKey_ne {k k' : String} (h : k ≠ k') (l : List (String × α)) :
    List.lookup k (eraseKey k' l) = List.lookup k l := by
  induction l with
  | nil => rfl
  | cons p l ih =>
    rcases p with ⟨a, v⟩
    by_cases hp : a = k'
    · have hf : (a != k') = false := by simp [hp]
      have hk : (k == a) = false := str_beq_false (hp ▸ h)
      simp only [eraseKey, List.filter_cons, hf, Bool.false_eq_true, if_false,
        List.lookup, hk]
      exact ih
    · have hf : (a != k') = true := by simp [hp]
      by_cases hk : k = a
      · have hk' : (k == a) = true := by simp [hk]
        simp only [eraseKey, List.filter_cons, hf, if_true, List.lookup, hk']
      · have hk' : (k == a) = false := str_beq_false hk
        simp only [eraseKey, List.filter_cons, hf, if_true, List.lookup, hk']
        exact ih

theorem lookup_setKey_self (k : String) (v : α) (l : List (String × α)) :
    List.lookup k (setKey k v l) = some v := by
  induction l with
  | nil => simp [setKey, eraseKey, List.lookup]
  | cons p l ih =>
    by_cases h : p.1 = k
    · simpa [setKey, eraseKey, List.filter_cons, h] using ih
    · have hb : (p.1 != k) = true := by simp [h]
      have hk : (k == p.1) = false := by simp [Ne.symm h]
      simpa [setKey, eraseKey, List.filter_cons, hb, List.lookup, hk] using ih

theorem lookup_setKey_ne {k k' : String} (h : k ≠ k') (v : α)
    (l : List (String × α)) :
    List.lookup k (setKey k' v l) = List.lookup k l := by
  have hkk : (k == k') = false := str_beq_false h
  induction l with
  | nil => simp [setKey, eraseKey, List.lookup, hkk]
  | cons p l ih =>
    rcases p with ⟨a, v'⟩
    by_cases hp : a = k'
    · have hf : (a != k') = false := by simp [hp]
      have hk : (k == a) = false := str_beq_false (hp ▸ h)
      simp only [setKey, eraseKey, List.filter_cons, hf, Bool.false_eq_true,
        if_false, List.lookup, hk] at ih ⊢
      exact ih
    · have hf : (a != k') = true := by simp [hp]
      by_cases hk : k = a
      · have hk' : (k == a) = true := by simp [hk]
        simp only [setKey, eraseKey, List.filter_cons, hf, if_true,
          List.cons_append, List.lookup, hk']
      · have hk' : (k == a) = false := str_beq_false hk
        simp only [setKey, eraseKey, List.filter_cons, hf, if_true,
          List.cons_append, List.lookup, hk'] at ih ⊢
        exact ih

theorem lookup_mem_keys {k : String} {v : α} {l : List (String × α)}
    (h : List.lookup k l = some v) : k ∈ l.map Prod.fst := by
  induction l with
  | nil => simp [List.lookup] at h
  | cons p l ih =>
    by_cases hk : k = p.1
    · simp [hk]
    · have hk' : (k == p.1) = false := by simp [hk]
      rw [List.lookup, hk'] at h
      simpa using Or.inr (ih h)

/-! ### `lexLt` is a strict linear order -/

theorem lexLt_nil_right (a : List Char) : lexLt a [] = false := by
  cases a <;> rfl

theorem lexLt_asymm : ∀ {a b : List Char}, lexLt a b = true → lexLt b a = false
  | [], [], h => by simp [lexLt] at h
  | [], _ :: _, _ => lexLt_nil_right _
  | _ :: _, [], h => by rw [lexLt_nil_right] at h; exact absurd h (by simp)
  | x :: xs, y :: ys, h => by
    simp only [lexLt] at h ⊢
    by_cases hxy : x < y
    · have hyx : ¬ y < x := lt_asymm hxy
      simp [hxy, hyx]
    · by_cases hyx : y < x
      · simp [hxy, hyx] at h
      · simp only [hxy, hyx, if_false] at h ⊢
        exact lexLt_asymm h

theorem lexLt_trans : ∀ {a b c : List Char},
    lexLt a b = true → lexLt b c = true → lexLt a c = true
  | _, b, [], _, hbc => by
    rw [lexLt_nil_right b] at hbc; exact absurd hbc (by simp)
  | [], b, _ :: _, _, _ => rfl
  | x :: xs, b, z :: zs, hab, hbc => by
    match b with
    | [] => rw [lexLt_nil_right] at hab
            exact absurd hab (by simp)
    | y :: ys =>
      simp only [lexLt] at hab hbc ⊢
      by_cases hxy : x < y
      · by_cases hyz : y < z
        · simp [lt_trans hxy hyz]
        · by_cases hzy : z < y
          · simp [hyz, hzy] at hbc
          · have : y = z := le_antisymm (not_lt.mp hzy) (not_lt.mp hyz)
            subst this
            simp [hxy]
      · by_cases hyx : y < x
        · simp [hxy, hyx] at hab
        · have hxyeq : x = y := le_antisymm (not_lt.mp hyx) (not_lt.mp hxy)
          subst hxyeq
          simp only [hxy, hyx, if_false] at hab
          by_cases hyz : x < z
          · simp [hyz]
          · by_cases hzy : z < x
            · simp [hyz, hzy] at hbc
            · simp only [hyz, hzy, if_false] at hbc ⊢
              exact lexLt_trans hab hbc

theorem lexLt_total : ∀ {a b : List Char}, a ≠ b →
    lexLt a b = true ∨ lexLt b a = true
  | [], [], h => absurd rfl h
  | [], _ :: _, _ => Or.inl rfl
  | _ :: _, [], _ => Or.inr rfl
  | x :: xs, y :: ys, h => by
    by_cases hxy : x < y
    · exact Or.inl (by simp [lexLt, hxy])
    · by_cases hyx : y < x
      · exact Or.inr (by simp [lexLt, hyx, lt_asymm hyx])
      · have hxyeq : x = y := le_antisymm (not_lt.mp hyx) (not_lt.mp hxy)
        subst hxyeq
        have htl : xs ≠ ys := fun he => h (by rw [he])
        rcases lexLt_total htl with h1 | h1
        · exact Or.inl (by simp [lexLt, hxy, h1])
        · exact Or.inr (by simp [lexLt, hxy, h1])

instance : IsTotal String idLe where
  total a b := by
    unfold idLe strLe strLt
    by_cases he : a.data = b.data
    · left; simp [he, lexLt_irrefl]
    · rcases lexLt_total he with h | h
      · left; simp [lexLt_asymm h]
      · right; simp [lexLt_asymm h]

instance : IsTrans String idLe where
  trans a b c hab hbc := by
    unfold idLe strLe strLt at *
    simp only [Bool.not_eq_true'] at hab hbc
    simp only [Bool.not_eq_true']
    by_cases hca : lexLt c.data a.data = true
    · exfalso
      by_cases hcb : c.data = b.data
      · rw [← hcb] at hab; exact absurd hab (by simp [hca])
      · rcases lexLt_total hcb with h1 | h1
        · exact absurd hbc (by simp [h1])
        · have := lexLt_trans h1 hca
          exact absurd hab (by simp [this])
    · simpa using hca

end Rodin

namespace Rodin

/-! ### `get_pending` fold lemmas -/

theorem gpFold_recs_mono (wavs : List (String × Bytes)) (x : PendingRecording) :
    ∀ (ids : List String) (acc : List (String × Metadata) × List PendingRecording),
      x ∈ acc.2 → x ∈ (ids.foldl (gpStep wavs) acc).2
  | [], _, hx => hx
  | id :: ids, acc, hx => by
    rw [List.foldl_cons]
    apply gpFold_recs_mono wavs x ids
    unfold gpStep
    cases List.lookup id acc.1 with
    | none => exact hx
    | some m =>
      by_cases hw : (List.lookup id wavs).isSome
      · simp only [hw, if_true]
        exact List.mem_append_left _ hx
      · simp only [hw, if_false]
        exact hx

theorem gpFold_metas_lookup (wavs : List (String × Bytes)) {R : String}
    (hR : (List.lookup R wavs).isSome) :
    ∀ (ids : List String) (metas : List (String × Metadata))
      (recs : List PendingRecording),
      List.lookup R (ids.foldl (gpStep wavs) (metas, recs)).1 =
        List.lookup R metas
  | [], _, _ => rfl
  | id :: ids, metas, recs => by
    rw [List.foldl_cons]
    cases hm : List.lookup id metas with
    | none =>
      simp only [gpStep, hm]
      exact gpFold_metas_lookup wavs hR ids metas recs
    | some m =>
      by_cases hw : (List.lookup id wavs).isSome
      · simp only [gpStep, hm, hw, if_true]
        exact gpFold_metas_lookup wavs hR ids metas _
      · have hne : R ≠ id := by
          intro he; subst he; exact hw hR
        simp only [gpStep, hm, hw, Bool.false_eq_true, if_false]
        rw [gpFold_metas_lookup wavs hR ids _ recs]
        exact lookup_eraseKey_ne hne metas

theorem gpFold_mem (wavs : List (String × Bytes)) {R : String} {m : Metadata}
    (hw : (List.lookup R wavs).isSome) :
    ∀ (ids : List String) (metas : List (String × Metadata))
      (recs : List PendingRecording),
      R ∈ ids → List.lookup R metas = some m →
      PendingRecording.fromMeta R m ∈ (ids.foldl (gpStep wavs) (metas, recs)).2
  | [], _, _, hin, _ => absurd hin (List.not_mem_nil R)
  | id :: ids, metas, recs, hin, hm => by
    rw [List.foldl_cons]
    by_cases hid : id = R
    · subst hid
      rw [show gpStep wavs (metas, recs) id =
        (metas, recs ++ [PendingRecording.fromMeta id m]) by
          simp [gpStep, hm, hw]]
      exact gpFold_recs_mono wavs _ ids _
        (List.mem_append_right _ (List.mem_singleton.mpr rfl))
    · have hin' : R ∈ ids := by
        rcases List.mem_cons.mp hin with he | h
        · exact absurd he.symm hid
        · exact h
      cases hm' : List.lookup id metas with
      | none =>
        simp only [gpStep, hm']
        exact gpFold_mem wavs hw ids metas recs hin' hm
      | some m' =>
        by_cases hw' : (List.lookup id wavs).isSome
        · simp only [gpStep, hm', hw', if_true]
          exact gpFold_mem wavs hw ids metas _ hin' hm
        · simp only [gpStep, hm', hw', if_false]
          apply gpFold_mem wavs hw ids _ recs hin'
          rw [lookup_eraseKey_ne (fun he => hid he.symm) metas]
          exact hm

/-! ### `get_pending` facts -/

theorem getPending_wavs (d : QueueDir) : (getPending d).1.wavs = d.wavs := rfl

theorem getPending_metas_lookup (d : QueueDir) {R : String}
    (hw : (List.lookup R d.wavs).isSome) :
    List.lookup R (getPending d).1.metas = List.lookup R d.metas :=
  gpFold_metas_lookup d.wavs hw _ d.metas []

theorem getPending_mem (d : QueueDir) {R : String} {m : Metadata}
    (hw : (List.lookup R d.wavs).isSome)
    (hm : List.lookup R d.metas = some m) :
    PendingRecording.fromMeta R m ∈ (getPending d).2 := by
  have hkeys : R ∈ d.metas.map Prod.fst := lookup_mem_keys hm
  have hperm := List.perm_insertionSort idLe (d.metas.map Prod.fst)
  exact gpFold_mem d.wavs hw _ d.metas [] (hperm.mem_iff.mpr hkeys) hm

/-! ### Sweep preservation -/

theorem sweep_preserve {fn : PendingRecording → Bytes → FnRes} {R : String}
    (hfn : ∀ r b, r.id = R → fn r b ≠ FnRes.success) (total : Nat) :
    ∀ (ps : List PendingRecording) (d : QueueDir) (i : Nat),
      List.lookup R (sweep fn total d i ps).dir.wavs = List.lookup R d.wavs ∧
      List.lookup R (sweep fn total d i ps).dir.metas = List.lookup R d.metas
  | [], _, _ => ⟨rfl, rfl⟩
  | r :: rest, d, i => by
    cases hw : List.lookup r.id d.wavs with
    | none =>
      simp only [sweep, hw]
      exact sweep_preserve hfn total rest d (i + 1)
    | some bytes =>
      cases hres : fn r bytes with
      | success =>
        have hne : R ≠ r.id := fun he => hfn r bytes he.symm hres
        simp only [sweep, hw, hres]
        have ihp := sweep_preserve hfn total rest (markCompletedDir d r.id) (i + 1)
        refine ⟨?_, ?_⟩
        · rw [ihp.1]; exact lookup_eraseKey_ne hne _
        · rw [ihp.2]; exact lookup_eraseKey_ne hne _
      | failure =>
        simp only [sweep, hw, hres]
        exact sweep_preserve hfn total rest d (i + 1)
      | raised =>
        simp only [sweep, hw, hres]
        exact sweep_preserve hfn total rest d (i + 1)

theorem processPending_preserve {s : QueueState}
    {fn : PendingRecording → Bytes → FnRes} {R : String}
    (hfn : ∀ r b, r.id = R → fn r b ≠ FnRes.success)
    (hw : (List.lookup R s.dir.wavs).isSome) :
    List.lookup R (processPending s fn).state.dir.wavs =
      List.lookup R s.dir.wavs ∧
    List.lookup R (processPending s fn).state.dir.metas =
      List.lookup R s.dir.metas := by
  by_cases hp : s.isProcessing = true
  · simp [processPending, hp]
  · by_cases hst : s.stopEvent = true
    · simp only [processPending, hp, if_false, hst, if_true]
      exact ⟨rfl, getPending_metas_lookup s.dir hw⟩
    · simp only [processPending, hp, hst, Bool.false_eq_true, if_false]
      have hsw := sweep_preserve hfn (getPending s.dir).2.length
        (getPending s.dir).2 (getPending s.dir).1 0
      refine ⟨?_, ?_⟩
      · rw [hsw.1]; rfl
      · rw [hsw.2]; exact getPending_metas_lookup s.dir hw

/-! ### Preservation across interleaved queue operations -/

theorem applyOp_preserve {R : String} {audio : Bytes} {m : Metadata}
    (s : QueueState) (op : QOp) (hsp : sparesId R op)
    (hw : List.lookup R s.dir.wavs = some audio)
    (hm : List.lookup R s.dir.metas = some m) :
    List.lookup R (applyOp s op).dir.wavs = some audio ∧
    List.lookup R (applyOp s op).dir.metas = some m := by
  cases op with
  | save now audio' bid an pr =>
    have hne : R ≠ recordingIdStr now := Ne.symm hsp
    constructor
    · show List.lookup R (setKey (recordingIdStr now) audio' s.dir.wavs) = _
      rw [lookup_setKey_ne hne]; exact hw
    · show List.lookup R (setKey (recordingIdStr now) _ s.dir.metas) = _
      rw [lookup_setKey_ne hne]; exact hm
  | listPending =>
    constructor
    · show List.lookup R (getPending s.dir).1.wavs = _
      rw [getPending_wavs]; exact hw
    · show List.lookup R (getPending s.dir).1.metas = _
      rw [getPending_metas_lookup s.dir (by simp [hw])]; exact hm
  | complete id =>
    have hne : R ≠ id := Ne.symm hsp
    constructor
    · show List.lookup R (eraseKey id s.dir.wavs) = _
      rw [lookup_eraseKey_ne hne]; exact hw
    · show List.lookup R (eraseKey id s.dir.metas) = _
      rw [lookup_eraseKey_ne hne]; exact hm
  | process fn =>
    have hpp := processPending_preserve (s := s) hsp (by simp [hw])
    constructor
    · show List.lookup R (processPending s fn).state.dir.wavs = some audio
      rw [hpp.1]; exact hw
    · show List.lookup R (processPending s fn).state.dir.metas = some m
      rw [hpp.2]; exact hm

theorem runOps_preserve {R : String} {audio : Bytes} {m : Metadata} :
    ∀ (ops : List QOp) (s : QueueState),
      (∀ op ∈ ops, sparesId R op) →
      List.lookup R s.dir.wavs = some audio →
      List.lookup R s.dir.metas = some m →
      List.lookup R (runOps s ops).dir.wavs = some audio ∧
      List.lookup R (runOps s ops).dir.metas = some m
  | [], _, _, hw, hm => ⟨hw, hm⟩
  | op :: ops, s, hops, hw, hm => by
    have h1 := applyOp_preserve s op (hops op (by simp)) hw hm
    exact runOps_preserve ops (applyOp s op)
      (fun o ho => hops o (by simp [ho])) h1.1 h1.2

/-! ### Claim theorems: C1, C2, C5 -/

/-- C1: a recording accepted by `save_recording` stays in every later
`get_pending` listing — same id and metadata, audio bytes intact — across
any interleaving of saves (under fresh ids), listings, completions of other
recordings and sweeps that do not succeed on it, and in particular for a
fresh `AudioQueue` constructed over the same directory (simulated restart). -/
theorem save_recording_durable
    (s : QueueState) (now : Timestamp) (audio : Bytes)
    (bid an pr : Option String) (ops : List QOp)
    (hops : ∀ op ∈ ops, sparesId (recordingIdStr now) op) :
    let saved := saveRecording s.dir now audio bid an pr
    let final := runOps ⟨saved.1, s.isProcessing, s.stopEvent⟩ ops
    saved.2 ∈ (getPending final.dir).2 ∧
    List.lookup saved.2.id final.dir.wavs = some audio ∧
    saved.2 ∈ (getPending (freshQueue final.dir).dir).2 := by
  intro saved final
  have h0w : List.lookup (recordingIdStr now) saved.1.wavs = some audio :=
    lookup_setKey_self _ _ _
  have h0m : List.lookup (recordingIdStr now) saved.1.metas =
      some ⟨now, bid, an, pr⟩ :=
    lookup_setKey_self _ _ _
  obtain ⟨hw, hm⟩ := runOps_preserve ops ⟨saved.1, s.isProcessing, s.stopEvent⟩
    hops h0w h0m
  have hmem : PendingRecording.fromMeta (recordingIdStr now)
      ⟨now, bid, an, pr⟩ ∈ (getPending final.dir).2 :=
    getPending_mem final.dir (by simp [hw]) hm
  exact ⟨hmem, hw, hmem⟩

/-- C1 witness: a concrete save followed by a listing, a foreign completion
and a failing sweep still lists the recording with its audio. -/
theorem save_recording_durable_witness :
    (saveRecording ⟨[], []⟩ ⟨2024, 5, 6, 7, 8, 9, 10⟩ [1, 2, 3] none
        (some "App") none).2 ∈
      (getPending (runOps
        ⟨(saveRecording ⟨[], []⟩ ⟨2024, 5, 6, 7, 8, 9, 10⟩ [1, 2, 3] none
            (some "App") none).1, false, false⟩
        [QOp.listPending, QOp.complete "other",
         QOp.process fun _ _ => FnRes.raised]).dir).2 := by
  have h := save_recording_durable ⟨⟨[], []⟩, false, false⟩
    ⟨2024, 5, 6, 7, 8, 9, 10⟩ [1, 2, 3] none (some "App") none
    [QOp.listPending, QOp.complete "other",
     QOp.process fun _ _ => FnRes.raised] ?_
  · exact h.1
  · intro op hop
    simp only [List.mem_cons, List.not_mem_nil, or_false] at hop
    rcases hop with h | h | h
    · subst h; trivial
    · subst h
      show "other" ≠ recordingIdStr ⟨2024, 5, 6, 7, 8, 9, 10⟩
      decide
    · subst h
      intro r b _ hres
      exact FnRes.noConfusion hres

/-- C2: `process_pending` called while a sweep is already running returns 0
at once, calls `process_fn` on nothing, leaves the directory untouched; and
whenever a sweep does run — `process_fn` exceptions included — the
`_is_processing` flag is clear again on return. -/
theorem process_pending_single_flight (s : QueueState)
    (fn : PendingRecording → Bytes → FnRes) :
    (s.isProcessing = true → processPending s fn = ⟨s, 0, [], []⟩) ∧
    (s.isProcessing = false →
      (processPending s fn).state.isProcessing = false) := by
  constructor
  · intro h; simp [processPending, h]
  · intro h
    by_cases hst : s.stopEvent = true <;>
      simp [processPending, h, hst]

/-- C2 witness at a concrete busy state and a concrete idle state with a
raising `process_fn`. -/
theorem process_pending_single_flight_witness :
    processPending ⟨⟨[("a", [0])], [("a", ⟨⟨2024, 1, 1, 0, 0, 0, 0⟩, none, none, none⟩)]⟩, true, false⟩
        (fun _ _ => FnRes.failure) =
      ⟨⟨⟨[("a", [0])], [("a", ⟨⟨2024, 1, 1, 0, 0, 0, 0⟩, none, none, none⟩)]⟩, true, false⟩, 0, [], []⟩ ∧
    (processPending ⟨⟨[("a", [0])], [("a", ⟨⟨2024, 1, 1, 0, 0, 0, 0⟩, none, none, none⟩)]⟩, false, false⟩
        (fun _ _ => FnRes.raised)).state.isProcessing = false :=
  ⟨(process_pending_single_flight _ _).1 rfl,
   (process_pending_single_flight _ _).2 rfl⟩

/-- C5: two `save_recording` calls at distinct (microsecond-resolution)
clock readings generate distinct ids, and the id of the earlier call sorts
strictly first, so listing by id is chronological order of capture. -/
theorem save_recording_ids_unique_chronological
    (d1 d2 : QueueDir) (t1 t2 : Timestamp) (a1 a2 : Bytes)
    (x1 x2 y1 y2 z1 z2 : Option String)
    (h1 : t1.valid) (h2 : t2.valid) :
    let r1 := (saveRecording d1 t1 a1 x1 y1 z1).2
    let r2 := (saveRecording d2 t2 a2 x2 y2 z2).2
    (t1 ≠ t2 → r1.id ≠ r2.id) ∧
    (t1.chronLt t2 → strLt r1.id r2.id = true) := by
  refine ⟨fun hne he => ?_, fun hlt => ?_⟩
  · have hdata : recordingId t1 = recordingId t2 := congrArg String.data he
    exact recordingId_inj h1 h2 hne hdata
  · show lexLt (recordingId t1) (recordingId t2) = true
    exact recordingId_mono h1 h2 hlt

/-- C5 witness: two concrete clock readings one microsecond apart. -/
theorem save_recording_ids_witness :
    let r1 := (saveRecording ⟨[], []⟩ ⟨2024, 5, 6, 7, 8, 9, 10⟩ [] none none none).2
    let r2 := (saveRecording ⟨[], []⟩ ⟨2024, 5, 6, 7, 8, 9, 11⟩ [] none none none).2
    ((⟨2024, 5, 6, 7, 8, 9, 10⟩ : Timestamp) ≠ ⟨2024, 5, 6, 7, 8, 9, 11⟩ → r1.id ≠ r2.id) ∧
    ((⟨2024, 5, 6, 7, 8, 9, 10⟩ : Timestamp).chronLt ⟨2024, 5, 6, 7, 8, 9, 11⟩ →
      strLt r1.id r2.id = true) :=
  save_recording_ids_unique_chronological _ _ _ _ _ _ _ _ _ _ _ _
    (by decide) (by decide)

end Rodin

namespace Rodin

/-! ### Structure of the `get_pending` listing (claim C4) -/

/-- Distinct file names in a directory listing. -/
def nodupKeys (l : List (String × α)) : Prop := (l.map Prod.fst).Nodup

instance (l : List (String × α)) : Decidable (nodupKeys l) := by
  unfold nodupKeys; infer_instance

theorem isSome_lookup_of_mem_keys {k : String} {l : List (String × α)}
    (h : k ∈ l.map Prod.fst) : (List.lookup k l).isSome := by
  induction l with
  | nil => simp at h
  | cons p l ih =>
    by_cases hk : k = p.1
    · have : (k == p.1) = true := by simp [hk]
      simp [List.lookup, this]
    · have hk' : (k == p.1) = false := str_beq_false hk
      simp only [List.lookup, hk']
      apply ih
      rw [List.map_cons] at h
      rcases List.mem_cons.mp h with he | he
      · exact absurd he hk
      · exact he

theorem gpFold_recs_struct (wavs : List (String × Bytes)) :
    ∀ (ids : List String) (metas : List (String × Metadata))
      (racc : List PendingRecording),
      ∃ sub : List PendingRecording,
        (ids.foldl (gpStep wavs) (metas, racc)).2 = racc ++ sub ∧
        List.Sublist (sub.map PendingRecording.id) ids ∧
        (∀ r ∈ sub, (List.lookup r.id wavs).isSome) ∧
        (∀ r ∈ sub, ∃ m, List.lookup r.id metas = some m ∧
          r = PendingRecording.fromMeta r.id m)
  | [], _, racc =>
    ⟨[], by simp, List.nil_sublist [], fun r hr => absurd hr (List.not_mem_nil r),
      fun r hr => absurd hr (List.not_mem_nil r)⟩
  | id :: ids, metas, racc => by
    rw [List.foldl_cons]
    cases hm : List.lookup id metas with
    | none =>
      obtain ⟨sub, h1, h2, h3, h4⟩ := gpFold_recs_struct wavs ids metas racc
      refine ⟨sub, ?_, h2.cons id, h3, h4⟩
      simpa [gpStep, hm] using h1
    | some m =>
      by_cases hww : (List.lookup id wavs).isSome
      · obtain ⟨sub, h1, h2, h3, h4⟩ :=
          gpFold_recs_struct wavs ids metas (racc ++ [PendingRecording.fromMeta id m])
        refine ⟨PendingRecording.fromMeta id m :: sub, ?_, ?_, ?_, ?_⟩
        · rw [show gpStep wavs (metas, racc) id =
            (metas, racc ++ [PendingRecording.fromMeta id m]) by
              simp [gpStep, hm, hww]]
          rw [h1, List.append_assoc]
          rfl
        · exact h2.cons₂ id
        · intro r hr
          rcases List.mem_cons.mp hr with he | he
          · rw [he]; exact hww
          · exact h3 r he
        · intro r hr
          rcases List.mem_cons.mp hr with he | he
          · exact ⟨m, by rw [he]; exact ⟨hm, rfl⟩⟩
          · exact h4 r he
      · obtain ⟨sub, h1, h2, h3, h4⟩ :=
          gpFold_recs_struct wavs ids (eraseKey id metas) racc
        refine ⟨sub, ?_, h2.cons id, h3, ?_⟩
        · rw [show gpStep wavs (metas, racc) id = (eraseKey id metas, racc) by
            simp [gpStep, hm, hww]]
          exact h1
        · intro r hr
          obtain ⟨m', hm', he⟩ := h4 r hr
          have hne : r.id ≠ id := by
            intro hre
            rw [hre, lookup_eraseKey_self] at hm'
            exact Option.noConfusion hm'
          exact ⟨m', by rw [← lookup_eraseKey_ne hne metas]; exact hm', he⟩

theorem gpFold_metas_none (wavs : List (String × Bytes)) {R : String} :
    ∀ (ids : List String) (metas : List (String × Metadata))
      (recs : List PendingRecording),
      List.lookup R metas = none →
      List.lookup R (ids.foldl (gpStep wavs) (metas, recs)).1 = none
  | [], _, _, hm => hm
  | id :: ids, metas, recs, hm => by
    rw [List.foldl_cons]
    cases hm' : List.lookup id metas with
    | none =>
      simp only [gpStep, hm']
      exact gpFold_metas_none wavs ids metas recs hm
    | some m =>
      by_cases hww : (List.lookup id wavs).isSome
      · simp only [gpStep, hm', hww, if_true]
        exact gpFold_metas_none wavs ids metas _ hm
      · simp only [gpStep, hm', hww, Bool.false_eq_true, if_false]
        apply gpFold_metas_none wavs ids _ recs
        by_cases hre : R = id
        · rw [hre]; exact lookup_eraseKey_self id metas
        · rw [lookup_eraseKey_ne hre metas]; exact hm

theorem gpFold_orphan_erased (wavs : List (String × Bytes)) {R : String}
    (hw : List.lookup R wavs = none) :
    ∀ (ids : List String) (metas : List (String × Metadata))
      (recs : List PendingRecording),
      R ∈ ids →
      List.lookup R (ids.foldl (gpStep wavs) (metas, recs)).1 = none
  | [], _, _, hin => absurd hin (List.not_mem_nil R)
  | id :: ids, metas, recs, hin => by
    rw [List.foldl_cons]
    by_cases hid : id = R
    · subst hid
      cases hm' : List.lookup id metas with
      | none =>
        simp only [gpStep, hm']
        exact gpFold_metas_none wavs ids metas recs hm'
      | some m =>
        have hww : (List.lookup id wavs).isSome = false := by simp [hw]
        simp only [gpStep, hm', hww, Bool.false_eq_true, if_false]
        exact gpFold_metas_none wavs ids _ recs (lookup_eraseKey_self id metas)
    · have hin' : R ∈ ids := by
        rcases List.mem_cons.mp hin with he | he
        · exact absurd he.symm hid
        · exact he
      cases hm' : List.lookup id metas with
      | none =>
        simp only [gpStep, hm']
        exact gpFold_orphan_erased wavs hw ids metas recs hin'
      | some m =>
        by_cases hww : (List.lookup id wavs).isSome
        · simp only [gpStep, hm', hww, if_true]
          exact gpFold_orphan_erased wavs hw ids metas _ hin'
        · simp only [gpStep, hm', hww, Bool.false_eq_true, if_false]
          exact gpFold_orphan_erased wavs hw ids _ recs hin'

/-- Every listed entry has its audio on disk and is the faithful load of a
metadata file of the directory. -/
theorem getPending_entries (d : QueueDir) :
    ∀ r ∈ (getPending d).2,
      (List.lookup r.id d.wavs).isSome ∧
      ∃ m, List.lookup r.id d.metas = some m ∧
        r = PendingRecording.fromMeta r.id m := by
  intro r hr
  obtain ⟨sub, h1, _, h3, h4⟩ := gpFold_recs_struct d.wavs
    (List.insertionSort idLe (d.metas.map Prod.fst)) d.metas []
  have hr' : r ∈ sub := by
    have : (getPending d).2 = sub := by
      show (List.foldl (gpStep d.wavs) (d.metas, [])
        (List.insertionSort idLe (d.metas.map Prod.fst))).2 = sub
      rw [h1]; rfl
    rwa [this] at hr
  exact ⟨h3 r hr', h4 r hr'⟩

/-- The listing is sorted by id. -/
theorem getPending_sorted (d : QueueDir) :
    List.Pairwise idLe ((getPending d).2.map PendingRecording.id) := by
  obtain ⟨sub, h1, h2, _, _⟩ := gpFold_recs_struct d.wavs
    (List.insertionSort idLe (d.metas.map Prod.fst)) d.metas []
  have he : (getPending d).2 = sub := by
    show (List.foldl (gpStep d.wavs) (d.metas, [])
      (List.insertionSort idLe (d.metas.map Prod.fst))).2 = sub
    rw [h1]; rfl
  rw [he]
  exact (List.sorted_insertionSort idLe (d.metas.map Prod.fst)).sublist h2

end Rodin

namespace Rodin

theorem recordingId_lt_iff {t1 t2 : Timestamp} (h1 : t1.valid) (h2 : t2.valid) :
    t1.chronLt t2 ↔ lexLt (recordingId t1) (recordingId t2) = true := by
  constructor
  · exact recordingId_mono h1 h2
  · intro h
    rcases Nat.lt_trichotomy t1.key t2.key with hlt | heq | hgt
    · exact hlt
    · exfalso
      have he : t1 = t2 := by
        obtain ⟨ha1, ha2, ha3, ha4, ha5, ha6, ha7, ha8, ha9, ha10⟩ := h1
        obtain ⟨hb1, hb2, hb3, hb4, hb5, hb6, hb7, hb8, hb9, hb10⟩ := h2
        unfold Timestamp.key at heq
        cases t1; cases t2
        simp only [Timestamp.mk.injEq]
        simp only at *
        omega
      rw [he, lexLt_irrefl] at h
      exact absurd h (by simp)
    · have hm := recordingId_mono h2 h1 hgt
      rw [lexLt_asymm hm] at h
      exact absurd h (by simp)

/-- C4: `get_pending` lists entries in non-decreasing id order; id order is
chronological order of the capture timestamps the ids are formatted from;
and a metadata file whose audio payload is missing is absent from the
result, deleted during the call, and absent from any subsequent listing. -/
theorem get_pending_sorted_and_self_healing (d : QueueDir) :
    List.Pairwise idLe ((getPending d).2.map PendingRecording.id) ∧
    (∀ t1 t2 : Timestamp, t1.valid → t2.valid →
      (t1.chronLt t2 ↔ strLt (recordingIdStr t1) (recordingIdStr t2) = true)) ∧
    ∀ id m, List.lookup id d.metas = some m → List.lookup id d.wavs = none →
      id ∉ (getPending d).2.map PendingRecording.id ∧
      List.lookup id (getPending d).1.metas = none ∧
      id ∉ (getPending (getPending d).1).2.map PendingRecording.id := by
  refine ⟨getPending_sorted d, ?_, ?_⟩
  · intro t1 t2 h1 h2
    exact recordingId_lt_iff h1 h2
  · intro id m hm hw
    have herase : List.lookup id (getPending d).1.metas = none := by
      show List.lookup id (List.foldl (gpStep d.wavs) (d.metas, [])
        (List.insertionSort idLe (d.metas.map Prod.fst))).1 = none
      apply gpFold_orphan_erased d.wavs hw
      exact (List.perm_insertionSort idLe _).mem_iff.mpr (lookup_mem_keys hm)
    refine ⟨?_, herase, ?_⟩
    · intro hmem
      obtain ⟨r, hr, hrid⟩ := List.mem_map.mp hmem
      have hs := (getPending_entries d r hr).1
      rw [hrid, hw] at hs
      exact absurd hs (by simp)
    · intro hmem
      obtain ⟨r, hr, hrid⟩ := List.mem_map.mp hmem
      obtain ⟨m', hm', _⟩ := (getPending_entries (getPending d).1 r hr).2
      rw [hrid, herase] at hm'
      exact Option.noConfusion hm'

/-- C4 witness: a concrete two-entry directory whose entry `"a"` has no
audio payload, and two concrete timestamps one microsecond apart. -/
theorem get_pending_self_healing_witness :
    ((⟨2024, 1, 1, 0, 0, 0, 1⟩ : Timestamp).chronLt ⟨2024, 1, 1, 0, 0, 0, 2⟩ ↔
      strLt (recordingIdStr ⟨2024, 1, 1, 0, 0, 0, 1⟩)
        (recordingIdStr ⟨2024, 1, 1, 0, 0, 0, 2⟩) = true) ∧
    ("a" ∉ (getPending ⟨[("b", [7])],
        [("a", ⟨⟨2024, 1, 1, 0, 0, 0, 1⟩, none, none, none⟩),
         ("b", ⟨⟨2024, 1, 1, 0, 0, 0, 2⟩, none, none, none⟩)]⟩).2.map
        PendingRecording.id ∧
      List.lookup "a" (getPending ⟨[("b", [7])],
        [("a", ⟨⟨2024, 1, 1, 0, 0, 0, 1⟩, none, none, none⟩),
         ("b", ⟨⟨2024, 1, 1, 0, 0, 0, 2⟩, none, none, none⟩)]⟩).1.metas = none ∧
      "a" ∉ (getPending (getPending ⟨[("b", [7])],
        [("a", ⟨⟨2024, 1, 1, 0, 0, 0, 1⟩, none, none, none⟩),
         ("b", ⟨⟨2024, 1, 1, 0, 0, 0, 2⟩, none, none, none⟩)]⟩).1).2.map
        PendingRecording.id) :=
  ⟨(get_pending_sorted_and_self_healing ⟨[("b", [7])],
      [("a", ⟨⟨2024, 1, 1, 0, 0, 0, 1⟩, none, none, none⟩),
       ("b", ⟨⟨2024, 1, 1, 0, 0, 0, 2⟩, none, none, none⟩)]⟩).2.1
      ⟨2024, 1, 1, 0, 0, 0, 1⟩ ⟨2024, 1, 1, 0, 0, 0, 2⟩ (by decide) (by decide),
   (get_pending_sorted_and_self_healing ⟨[("b", [7])],
      [("a", ⟨⟨2024, 1, 1, 0, 0, 0, 1⟩, none, none, none⟩),
       ("b", ⟨⟨2024, 1, 1, 0, 0, 0, 2⟩, none, none, none⟩)]⟩).2.2
      "a" ⟨⟨2024, 1, 1, 0, 0, 0, 1⟩, none, none, none⟩ (by decide) (by decide)⟩

end Rodin

namespace Rodin

/-! ### Full characterisation of one sweep (claim C3) -/

theorem progress_range (i total n : Nat) :
    (i + 1, total) :: (List.range n).map (fun j => (i + 1 + j + 1, total)) =
    (List.range (n + 1)).map (fun j => (i + j + 1, total)) := by
  rw [List.range_succ_eq_map, List.map_cons, List.map_map]
  congr 1
  have hfe : (fun j => (i + 1 + j + 1, total)) =
      ((fun j => (i + j + 1, total)) ∘ Nat.succ) := by
    funext j
    simp only [Function.comp_apply]
    congr 1
    omega
  rw [hfe]

theorem sweep_notin_preserve (fn : PendingRecording → Bytes → FnRes)
    {R : String} (total : Nat) :
    ∀ (ps : List PendingRecording) (d : QueueDir) (i : Nat),
      R ∉ ps.map PendingRecording.id →
      List.lookup R (sweep fn total d i ps).dir.wavs = List.lookup R d.wavs ∧
      List.lookup R (sweep fn total d i ps).dir.metas = List.lookup R d.metas
  | [], _, _, _ => ⟨rfl, rfl⟩
  | r :: rest, d, i, hnin => by
    have hne : R ≠ r.id := by
      intro he
      exact hnin (by rw [List.map_cons, he]; exact List.mem_cons_self _ _)
    have hnin' : R ∉ rest.map PendingRecording.id := by
      intro hc
      exact hnin (by rw [List.map_cons]; exact List.mem_cons_of_mem _ hc)
    cases hw : List.lookup r.id d.wavs with
    | none =>
      simp only [sweep, hw]
      exact sweep_notin_preserve fn total rest d (i + 1) hnin'
    | some b =>
      cases hres : fn r b with
      | success =>
        simp only [sweep, hw, hres]
        have ih := sweep_notin_preserve fn total rest (markCompletedDir d r.id)
          (i + 1) hnin'
        exact ⟨by rw [ih.1]; exact lookup_eraseKey_ne hne _,
               by rw [ih.2]; exact lookup_eraseKey_ne hne _⟩
      | failure =>
        simp only [sweep, hw, hres]
        exact sweep_notin_preserve fn total rest d (i + 1) hnin'
      | raised =>
        simp only [sweep, hw, hres]
        exact sweep_notin_preserve fn total rest d (i + 1) hnin'

theorem sweep_spec (fn : PendingRecording → Bytes → FnRes) (total : Nat) :
    ∀ (ps : List PendingRecording) (d : QueueDir) (i : Nat),
      (ps.map PendingRecording.id).Nodup →
      (∀ r ∈ ps, (List.lookup r.id d.wavs).isSome) →
      (sweep fn total d i ps).calls = ps.map PendingRecording.id ∧
      (sweep fn total d i ps).progress =
        (List.range ps.length).map (fun j => (i + j + 1, total)) ∧
      (sweep fn total d i ps).processed = (ps.filter (fun r =>
        decide (fn r ((List.lookup r.id d.wavs).getD []) = FnRes.success))).length ∧
      (∀ r ∈ ps, fn r ((List.lookup r.id d.wavs).getD []) ≠ FnRes.success →
        List.lookup r.id (sweep fn total d i ps).dir.wavs =
          List.lookup r.id d.wavs ∧
        List.lookup r.id (sweep fn total d i ps).dir.metas =
          List.lookup r.id d.metas) ∧
      (∀ r ∈ ps, fn r ((List.lookup r.id d.wavs).getD []) = FnRes.success →
        List.lookup r.id (sweep fn total d i ps).dir.wavs = none ∧
        List.lookup r.id (sweep fn total d i ps).dir.metas = none)
  | [], d, i, _, _ => by
    refine ⟨rfl, by simp [sweep], rfl, ?_, ?_⟩ <;>
      exact fun r hr => absurd hr (List.not_mem_nil r)
  | r :: rest, d, i, hnd, hw => by
    obtain ⟨b, hb⟩ := Option.isSome_iff_exists.mp (hw r (List.mem_cons_self r rest))
    have hgd : (List.lookup r.id d.wavs).getD [] = b := by rw [hb]; rfl
    have hpair := List.nodup_cons.mp (by rw [List.map_cons] at hnd; exact hnd)
    have hwrest : ∀ r' ∈ rest, (List.lookup r'.id d.wavs).isSome :=
      fun r' hr' => hw r' (List.mem_cons_of_mem r hr')
    by_cases hsucc : fn r b = FnRes.success
    · have htransw : ∀ r' ∈ rest,
          List.lookup r'.id (markCompletedDir d r.id).wavs =
            List.lookup r'.id d.wavs := by
        intro r' hr'
        exact lookup_eraseKey_ne
          (fun he => hpair.1 (by rw [← he]; exact List.mem_map_of_mem _ hr')) _
      have htransm : ∀ r' ∈ rest,
          List.lookup r'.id (markCompletedDir d r.id).metas =
            List.lookup r'.id d.metas := by
        intro r' hr'
        exact lookup_eraseKey_ne
          (fun he => hpair.1 (by rw [← he]; exact List.mem_map_of_mem _ hr')) _
      have hwrest' : ∀ r' ∈ rest,
          (List.lookup r'.id (markCompletedDir d r.id).wavs).isSome := by
        intro r' hr'
        rw [htransw r' hr']
        exact hwrest r' hr'
      obtain ⟨ihc, ihp, ihn, ihkeep, ihdel⟩ :=
        sweep_spec fn total rest (markCompletedDir d r.id) (i + 1) hpair.2 hwrest'
      have hred : sweep fn total d i (r :: rest) =
          ⟨(sweep fn total (markCompletedDir d r.id) (i + 1) rest).dir,
           (sweep fn total (markCompletedDir d r.id) (i + 1) rest).processed + 1,
           r.id :: (sweep fn total (markCompletedDir d r.id) (i + 1) rest).calls,
           (i + 1, total) ::
             (sweep fn total (markCompletedDir d r.id) (i + 1) rest).progress⟩ := by
        simp [sweep, hb, hsucc]
      rw [hred]
      refine ⟨?_, ?_, ?_, ?_, ?_⟩
      · show r.id :: _ = _
        rw [List.map_cons, ihc]
      · show (i + 1, total) :: _ = _
        rw [ihp, List.length_cons]
        exact progress_range i total rest.length
      · show _ + 1 = _
        have hfc : rest.filter (fun r' => decide
            (fn r' ((List.lookup r'.id (markCompletedDir d r.id).wavs).getD []) =
              FnRes.success)) =
          rest.filter (fun r' => decide
            (fn r' ((List.lookup r'.id d.wavs).getD []) = FnRes.success)) :=
          List.filter_congr (fun r' hr' => by rw [htransw r' hr'])
        have hhead : decide (fn r ((List.lookup r.id d.wavs).getD []) =
            FnRes.success) = true := by simp [hgd, hsucc]
        rw [ihn, hfc, List.filter_cons, hhead, if_pos rfl, List.length_cons]
      · intro r' hr' hne
        rcases List.mem_cons.mp hr' with he | he
        · subst he
          rw [hgd] at hne
          exact absurd hsucc hne
        · have hk := ihkeep r' he (by rw [htransw r' he]; exact hne)
          constructor
          · show List.lookup r'.id
              (sweep fn total (markCompletedDir d r.id) (i + 1) rest).dir.wavs = _
            rw [hk.1, htransw r' he]
          · show List.lookup r'.id
              (sweep fn total (markCompletedDir d r.id) (i + 1) rest).dir.metas = _
            rw [hk.2, htransm r' he]
      · intro r' hr' hsc
        rcases List.mem_cons.mp hr' with he | he
        · subst he
          have hnp := sweep_notin_preserve fn total rest (markCompletedDir d r'.id)
            (i + 1) hpair.1
          exact ⟨by rw [hnp.1]; exact lookup_eraseKey_self _ _,
                 by rw [hnp.2]; exact lookup_eraseKey_self _ _⟩
        · exact ihdel r' he (by rw [htransw r' he]; exact hsc)
    · have hred : sweep fn total d i (r :: rest) =
          ⟨(sweep fn total d (i + 1) rest).dir,
           (sweep fn total d (i + 1) rest).processed,
           r.id :: (sweep fn total d (i + 1) rest).calls,
           (i + 1, total) :: (sweep fn total d (i + 1) rest).progress⟩ := by
        cases hres : fn r b with
        | success => exact absurd hres hsucc
        | failure => simp [sweep, hb, hres]
        | raised => simp [sweep, hb, hres]
      obtain ⟨ihc, ihp, ihn, ihkeep, ihdel⟩ :=
        sweep_spec fn total rest d (i + 1) hpair.2 hwrest
      rw [hred]
      refine ⟨?_, ?_, ?_, ?_, ?_⟩
      · show r.id :: _ = _
        rw [List.map_cons, ihc]
      · show (i + 1, total) :: _ = _
        rw [ihp, List.length_cons]
        exact progress_range i total rest.length
      · show _ = _
        have hhead : decide (fn r ((List.lookup r.id d.wavs).getD []) =
            FnRes.success) = false := by simp [hgd, hsucc]
        rw [List.filter_cons, hhead]
        simp only [Bool.false_eq_true, if_false]
        exact ihn
      · intro r' hr' hne
        rcases List.mem_cons.mp hr' with he | he
        · subst he
          exact sweep_notin_preserve fn total rest d (i + 1) hpair.1
        · exact ihkeep r' he hne
      · intro r' hr' hsc
        rcases List.mem_cons.mp hr' with he | he
        · subst he
          rw [hgd] at hsc
          exact absurd hsc hsucc
        · exact ihdel r' he hsc

end Rodin

namespace Rodin

/-- C3: with the stop event clear and no sweep in flight, `process_pending`
invokes `process_fn` on every pending item in listing order, reports
progress once after each item whatever its outcome, and returns exactly the
number of items whose `process_fn` call succeeded; an item on which
`process_fn` raised keeps its audio and metadata and is listed again by the
next `get_pending`, while every successful item is deleted. -/
theorem process_pending_fault_tolerance (s : QueueState)
    (fn : PendingRecording → Bytes → FnRes)
    (hidle : s.isProcessing = false) (hstop : s.stopEvent = false)
    (hnd : nodupKeys s.dir.metas) :
    (processPending s fn).calls =
      (getPending s.dir).2.map PendingRecording.id ∧
    (processPending s fn).progress =
      (List.range (getPending s.dir).2.length).map
        (fun j => (j + 1, (getPending s.dir).2.length)) ∧
    (processPending s fn).count = ((getPending s.dir).2.filter (fun r =>
      decide (fn r ((List.lookup r.id s.dir.wavs).getD []) =
        FnRes.success))).length ∧
    (∀ r ∈ (getPending s.dir).2,
      fn r ((List.lookup r.id s.dir.wavs).getD []) = FnRes.raised →
      List.lookup r.id (processPending s fn).state.dir.wavs =
        List.lookup r.id s.dir.wavs ∧
      List.lookup r.id (processPending s fn).state.dir.metas =
        List.lookup r.id s.dir.metas ∧
      r ∈ (getPending (processPending s fn).state.dir).2) ∧
    (∀ r ∈ (getPending s.dir).2,
      fn r ((List.lookup r.id s.dir.wavs).getD []) = FnRes.success →
      List.lookup r.id (processPending s fn).state.dir.wavs = none ∧
      List.lookup r.id (processPending s fn).state.dir.metas = none) := by
  have hwav : ∀ r ∈ (getPending s.dir).2,
      (List.lookup r.id s.dir.wavs).isSome :=
    fun r hr => (getPending_entries s.dir r hr).1
  have hnodup : ((getPending s.dir).2.map PendingRecording.id).Nodup := by
    obtain ⟨sub, h1, h2, _, _⟩ := gpFold_recs_struct s.dir.wavs
      (List.insertionSort idLe (s.dir.metas.map Prod.fst)) s.dir.metas []
    have he : (getPending s.dir).2 = sub := by
      show (List.foldl (gpStep s.dir.wavs) (s.dir.metas, [])
        (List.insertionSort idLe (s.dir.metas.map Prod.fst))).2 = sub
      rw [h1]; rfl
    rw [he]
    exact List.Nodup.sublist h2
      ((List.perm_insertionSort idLe _).nodup_iff.mpr hnd)
  have hw1 : ∀ r ∈ (getPending s.dir).2,
      (List.lookup r.id (getPending s.dir).1.wavs).isSome := hwav
  obtain ⟨ihc, ihp, ihn, ihkeep, ihdel⟩ := sweep_spec fn
    (getPending s.dir).2.length (getPending s.dir).2 (getPending s.dir).1 0
    hnodup hw1
  have hred : processPending s fn =
      ⟨⟨(sweep fn (getPending s.dir).2.length (getPending s.dir).1 0
          (getPending s.dir).2).dir, false, s.stopEvent⟩,
       (sweep fn (getPending s.dir).2.length (getPending s.dir).1 0
          (getPending s.dir).2).processed,
       (sweep fn (getPending s.dir).2.length (getPending s.dir).1 0
          (getPending s.dir).2).calls,
       (sweep fn (getPending s.dir).2.length (getPending s.dir).1 0
          (getPending s.dir).2).progress⟩ := by
    simp [processPending, hidle, hstop]
  rw [hred]
  refine ⟨ihc, ?_, ?_, ?_, ?_⟩
  · show (sweep fn (getPending s.dir).2.length (getPending s.dir).1 0
      (getPending s.dir).2).progress = _
    rw [ihp]
    simp only [Nat.zero_add]
  · exact ihn
  · intro r hr hraise
    have hnsucc : fn r ((List.lookup r.id (getPending s.dir).1.wavs).getD [])
        ≠ FnRes.success := by
      intro hc
      have hc' : fn r ((List.lookup r.id s.dir.wavs).getD []) =
          FnRes.success := hc
      rw [hc'] at hraise
      exact FnRes.noConfusion hraise
    obtain ⟨hkw, hkm⟩ := ihkeep r hr hnsucc
    have hkw' : List.lookup r.id (sweep fn (getPending s.dir).2.length
        (getPending s.dir).1 0 (getPending s.dir).2).dir.wavs =
        List.lookup r.id s.dir.wavs := hkw
    have hkm' : List.lookup r.id (sweep fn (getPending s.dir).2.length
        (getPending s.dir).1 0 (getPending s.dir).2).dir.metas =
        List.lookup r.id s.dir.metas := by
      rw [hkm]
      exact getPending_metas_lookup s.dir (hwav r hr)
    refine ⟨hkw', hkm', ?_⟩
    obtain ⟨m, hm, hfrom⟩ := (getPending_entries s.dir r hr).2
    have hws : (List.lookup r.id (sweep fn (getPending s.dir).2.length
        (getPending s.dir).1 0 (getPending s.dir).2).dir.wavs).isSome := by
      rw [hkw']; exact hwav r hr
    have hms : List.lookup r.id (sweep fn (getPending s.dir).2.length
        (getPending s.dir).1 0 (getPending s.dir).2).dir.metas = some m := by
      rw [hkm']; exact hm
    have hmem := getPending_mem _ hws hms
    rwa [← hfrom] at hmem
  · intro r hr hsucc2
    exact ihdel r hr hsucc2

/-- C3 witness: two pending recordings; `process_fn` raises on `"a"` and
succeeds on `"b"`: the sweep returns 1, keeps `"a"`'s audio, deletes
`"b"`'s. -/
theorem process_pending_fault_tolerance_witness :
    (processPending ⟨⟨[("a", [1]), ("b", [2])],
        [("a", ⟨⟨2024, 1, 1, 0, 0, 0, 1⟩, none, none, none⟩),
         ("b", ⟨⟨2024, 1, 1, 0, 0, 0, 2⟩, none, none, none⟩)]⟩, false, false⟩
      (fun r _ => if r.id = "a" then FnRes.raised else FnRes.success)).count
        = 1 ∧
    List.lookup "a" (processPending ⟨⟨[("a", [1]), ("b", [2])],
        [("a", ⟨⟨2024, 1, 1, 0, 0, 0, 1⟩, none, none, none⟩),
         ("b", ⟨⟨2024, 1, 1, 0, 0, 0, 2⟩, none, none, none⟩)]⟩, false, false⟩
      (fun r _ => if r.id = "a" then FnRes.raised else FnRes.success)).state.dir.wavs
        = some [1] ∧
    List.lookup "b" (processPending ⟨⟨[("a", [1]), ("b", [2])],
        [("a", ⟨⟨2024, 1, 1, 0, 0, 0, 1⟩, none, none, none⟩),
         ("b", ⟨⟨2024, 1, 1, 0, 0, 0, 2⟩, none, none, none⟩)]⟩, false, false⟩
      (fun r _ => if r.id = "a" then FnRes.raised else FnRes.success)).state.dir.wavs
        = none := by
  have h := process_pending_fault_tolerance
    ⟨⟨[("a", [1]), ("b", [2])],
      [("a", ⟨⟨2024, 1, 1, 0, 0, 0, 1⟩, none, none, none⟩),
       ("b", ⟨⟨2024, 1, 1, 0, 0, 0, 2⟩, none, none, none⟩)]⟩, false, false⟩
    (fun r _ => if r.id = "a" then FnRes.raised else FnRes.success)
    rfl rfl (by decide)
  refine ⟨?_, ?_, ?_⟩
  · rw [h.2.2.1]; rfl
  · have hk := h.2.2.2.1
      (PendingRecording.fromMeta "a" ⟨⟨2024, 1, 1, 0, 0, 0, 1⟩, none, none, none⟩)
      (by decide) (by decide)
    exact hk.1.trans rfl
  · have hd := h.2.2.2.2
      (PendingRecording.fromMeta "b" ⟨⟨2024, 1, 1, 0, 0, 0, 2⟩, none, none, none⟩)
      (by decide) (by decide)
    exact hd.1

end Rodin

namespace Rodin

/-! ### Text primitives (`str.strip`, `str.lower`, `str.split`, `re`)

The texts handled by the dictionaries and the command table are ASCII; the
embedding implements the ASCII fragment of Python's semantics: `\w` is
`[A-Za-z0-9_]`, `\s` is the six ASCII whitespace characters, and
`IGNORECASE` folds `A-Z`.  `re.escape` makes the trigger a literal, so a
compiled trigger pattern is literal-match between two `\b` assertions; the
replacement string is emitted as-is (the source stores plain words, not
template escapes). -/

/-- Python `str.isspace` fragment used by `strip()` and `split()`. -/
def pyIsSpace (c : Char) : Bool :=
  c == ' ' || c == '\t' || c == '\n' || c == '\r' || c == '\x0b' || c == '\x0c'

/-- `str.strip()`. -/
def pyStrip (s : List Char) : List Char :=
  ((s.dropWhile pyIsSpace).reverse.dropWhile pyIsSpace).reverse

/-- The upper-to-lower table of the basic latin letters. -/
def lowerTable : List (Char × Char) :=
  [('A', 'a'), ('B', 'b'), ('C', 'c'), ('D', 'd'), ('E', 'e'), ('F', 'f'),
   ('G', 'g'), ('H', 'h'), ('I', 'i'), ('J', 'j'), ('K', 'k'), ('L', 'l'),
   ('M', 'm'), ('N', 'n'), ('O', 'o'), ('P', 'p'), ('Q', 'q'), ('R', 'r'),
   ('S', 's'), ('T', 't'), ('U', 'u'), ('V', 'v'), ('W', 'w'), ('X', 'x'),
   ('Y', 'y'), ('Z', 'z')]

/-- `str.lower()` on one ASCII character: table lookup so that every fact
about it is a finite case split. -/
def lowerChar (c : Char) : Char := (List.lookup c lowerTable).getD c

/-- `str.lower()` (ASCII). -/
def pyLower (s : List Char) : List Char := s.map lowerChar

/-- A regex word character `\w` (ASCII). -/
def isWordChar (c : Char) : Bool := c.isAlpha || c.isDigit || c == '_'

/-- Case-insensitive literal prefix match: strip `t` (up to case) off the
front of `s`. -/
def stripCI : List Char → List Char → Option (List Char)
  | [], s => some s
  | _ :: _, [] => none
  | t :: ts, c :: cs => if lowerChar t == lowerChar c then stripCI ts cs else none

/-- Word-character-ness of a neighbouring position (`none` = edge of the
string, which counts as non-word). -/
def wOpt : Option Char → Bool
  | none => false
  | some c => isWordChar c

/-- The `\b` assertion between two characters: exactly one side is a word
character. -/
def isBoundary (prevc nextc : Option Char) : Bool := wOpt prevc != wOpt nextc

/-- The scan of `re.sub(rf'\b{re.escape(trig)}\b', repl, s, re.IGNORECASE)`:
walk the string left to right; `skip > 0` means we are inside an already
replaced match; at `skip = 0` try the literal-between-boundaries match at
the current position, emit the replacement and skip the matched region on
success, otherwise emit the character and move on. -/
def subWBGo (trig repl : List Char) : Nat → Option Char → List Char → List Char
  | _, _, [] => []
  | n + 1, _, c :: rest => subWBGo trig repl n (some c) rest
  | 0, prevc, c :: rest =>
    match stripCI trig (c :: rest) with
    | some rem =>
      if isBoundary prevc (some c) &&
          isBoundary ((c :: rest).take trig.length).getLast? rem.head? then
        repl ++ subWBGo trig repl (trig.length - 1) (some c) rest
      else
        c :: subWBGo trig repl 0 (some c) rest
    | none => c :: subWBGo trig repl 0 (some c) rest

/-- `re.sub` with the word-boundary pattern the dictionaries compile (the
empty trigger, whose pattern would be the degenerate `\b\b`, is not used by
the stores and is passed through). -/
def subWB (trig repl s : List Char) : List Char :=
  if trig.isEmpty then s else subWBGo trig repl 0 none s

/-- The specification's reading of `apply`/`expand`: case-insensitive,
whole-word substitution — split the text into maximal word / non-word runs
and replace every word run that equals the trigger up to case. -/
def specWordSub (trig repl : List Char) : List Char → List Char
  | [] => []
  | c :: rest =>
    if isWordChar c then
      (if pyLower (c :: rest.takeWhile isWordChar) = pyLower trig then repl
       else c :: rest.takeWhile isWordChar) ++
      specWordSub trig repl (rest.dropWhile isWordChar)
    else
      c :: specWordSub trig repl rest
termination_by s => s.length
decreasing_by
  · simp only [List.length_cons]
    have hd : ∀ (l : List Char), (l.dropWhile isWordChar).length ≤ l.length := by
      intro l
      induction l with
      | nil => simp [List.dropWhile]
      | cons x xs ih =>
        by_cases h : isWordChar x <;> simp [List.dropWhile, h] <;> omega
    have := hd rest
    omega
  · simp only [List.length_cons]
    omega

/-- `SnippetExpander.expand`: wholesale replacement when the trimmed,
lowercased input is exactly a trigger, otherwise word-boundary expansion of
every trigger in iteration order. -/
def SnippetExpander.expand (snippets : List (String × String))
    (text : String) : String :=
  if snippets.isEmpty then text
  else
    match List.lookup (String.mk (pyLower (pyStrip text.data))) snippets with
    | some e => e
    | none =>
      snippets.foldl (fun result p =>
        String.mk (subWB p.1.data p.2.data result.data)) text

/-- `PersonalDictionary.apply`: word-boundary substitution of every stored
correction in iteration order, emitting the stored replacement. -/
def PersonalDictionary.apply (corrections : List (String × String))
    (text : String) : String :=
  if corrections.isEmpty then text
  else
    corrections.foldl (fun result p =>
      String.mk (subWB p.1.data p.2.data result.data)) text

end Rodin

namespace Rodin

/-! ### Word-boundary substitution agrees with whole-word-run substitution -/

theorem lookup_none_of_not_mem_keys {α β : Type} [BEq α] [LawfulBEq α]
    {k : α} : ∀ {l : List (α × β)}, k ∉ l.map Prod.fst →
    List.lookup k l = none
  | [], _ => rfl
  | (a, b) :: l, h => by
    have hne : (k == a) = false := by
      cases he : k == a
      · rfl
      · exact absurd (by rw [eq_of_beq he]; simp : k ∈ ((a, b) :: l).map Prod.fst) h
    rw [List.lookup, hne]
    exact lookup_none_of_not_mem_keys fun hm => h (by simp at hm ⊢; exact Or.inr hm)

theorem lowerChar_isWordChar (c : Char) :
    isWordChar (lowerChar c) = isWordChar c := by
  by_cases h : c ∈ lowerTable.map Prod.fst
  · simp only [lowerTable, List.map_cons, List.map_nil] at h
    fin_cases h <;> rfl
  · rw [lowerChar, lookup_none_of_not_mem_keys h]
    rfl

theorem lowerChar_beq_word {a b : Char} (ha : isWordChar a = true)
    (hb : isWordChar b = false) : (lowerChar a == lowerChar b) = false := by
  cases he : lowerChar a == lowerChar b
  · rfl
  · exfalso
    have heq := eq_of_beq he
    have h1 := lowerChar_isWordChar a
    have h2 := lowerChar_isWordChar b
    rw [heq, h2, ha, hb] at h1
    exact Bool.noConfusion h1

theorem stripCI_some : ∀ {t s r : List Char}, stripCI t s = some r →
    ∃ m, s = m ++ r ∧ m.length = t.length ∧ pyLower m = pyLower t
  | [], s, r, h => by
    have hsr : s = r := Option.some.inj h
    exact ⟨[], by rw [hsr]; rfl, rfl, rfl⟩
  | t :: ts, [], r, h => by simp [stripCI] at h
  | t :: ts, c :: cs, r, h => by
    rw [stripCI] at h
    by_cases hl : (lowerChar t == lowerChar c) = true
    · rw [if_pos hl] at h
      obtain ⟨m, h1, h2, h3⟩ := stripCI_some h
      refine ⟨c :: m, by rw [List.cons_append, h1], by simp [h2], ?_⟩
      simp only [pyLower, List.map_cons] at h3 ⊢
      rw [h3, eq_of_beq hl]
    · rw [if_neg hl] at h
      exact Option.noConfusion h

theorem stripCI_of_pyLower_eq : ∀ {t m : List Char} (r : List Char),
    pyLower m = pyLower t → stripCI t (m ++ r) = some r
  | [], m, r, h => by
    have : m = [] := by
      have hl := congrArg List.length h
      simpa [pyLower] using hl
    rw [this]; rfl
  | t :: ts, [], r, h => by simp [pyLower] at h
  | t :: ts, c :: cs, r, h => by
    simp only [pyLower, List.map_cons, List.cons.injEq] at h
    rw [List.cons_append, stripCI, if_pos (by simp [h.1])]
    exact stripCI_of_pyLower_eq r h.2

theorem head_dropWhile_not (p : Char → Bool) :
    ∀ (l : List Char) (c : Char), (l.dropWhile p).head? = some c → p c = false
  | [], c, h => by simp [List.dropWhile] at h
  | x :: xs, c, h => by
    by_cases hx : p x
    · rw [List.dropWhile_cons_of_pos hx] at h
      exact head_dropWhile_not p xs c h
    · rw [List.dropWhile_cons_of_neg hx] at h
      simp only [List.head?_cons, Option.some.injEq] at h
      rw [← h]
      exact Bool.of_not_eq_true hx

theorem word_of_pyLower_eq : ∀ {m t : List Char}, pyLower m = pyLower t →
    (∀ x ∈ t, isWordChar x = true) → ∀ x ∈ m, isWordChar x = true
  | [], _, _, _, x, hx => absurd hx (List.not_mem_nil x)
  | c :: cs, [], h, _, _, _ => by simp [pyLower] at h
  | c :: cs, t :: ts, h, hword, x, hx => by
    simp only [pyLower, List.map_cons, List.cons.injEq] at h
    rcases List.mem_cons.mp hx with he | he
    · subst he
      have h1 := lowerChar_isWordChar x
      have h2 := lowerChar_isWordChar t
      rw [h.1, h2, hword t (List.mem_cons_self t ts)] at h1
      exact h1.symm
    · exact word_of_pyLower_eq h.2 (fun y hy => hword y (List.mem_cons_of_mem t hy)) x he

theorem getLast?_word : ∀ {m : List Char}, (∀ x ∈ m, isWordChar x = true) →
    m ≠ [] → ∃ y, m.getLast? = some y ∧ isWordChar y = true
  | [], _, hne => absurd rfl hne
  | [x], hw, _ => ⟨x, rfl, hw x (List.mem_singleton.mpr rfl)⟩
  | x :: y :: l, hw, _ => by
    rw [List.getLast?_cons_cons]
    exact getLast?_word (fun z hz => hw z (List.mem_cons_of_mem x hz))
      (by simp)

/-- The previous character after walking `pre` starting from `prevc`. -/
def afterPrev (pre : List Char) (prevc : Option Char) : Option Char :=
  match pre.getLast? with
  | some x => some x
  | none => prevc

theorem afterPrev_cons (x : Char) (pre : List Char) (prevc : Option Char) :
    afterPrev (x :: pre) prevc = afterPrev pre (some x) := by
  cases pre with
  | nil => rfl
  | cons y l => rw [afterPrev, List.getLast?_cons_cons]; rfl

theorem subWBGo_skip (trig repl : List Char) :
    ∀ (pre : List Char) (prevc : Option Char) (rest : List Char),
      subWBGo trig repl pre.length prevc (pre ++ rest) =
        subWBGo trig repl 0 (afterPrev pre prevc) rest
  | [], _, _ => rfl
  | x :: pre, prevc, rest => by
    rw [List.length_cons, List.cons_append, afterPrev_cons]
    show subWBGo trig repl pre.length (some x) (pre ++ rest) = _
    exact subWBGo_skip trig repl pre (some x) rest

theorem subWBGo_wordrun (trig repl : List Char) :
    ∀ (run : List Char) (prevc : Option Char) (rest : List Char),
      (∀ x ∈ run, isWordChar x = true) →
      wOpt prevc = true →
      subWBGo trig repl 0 prevc (run ++ rest) =
        run ++ subWBGo trig repl 0 (afterPrev run prevc) rest
  | [], _, _, _, _ => rfl
  | x :: run, prevc, rest, hw, hp => by
    have hx := hw x (List.mem_cons_self x run)
    have hb : isBoundary prevc (some x) = false := by
      unfold isBoundary
      rw [hp]
      simp [wOpt, hx]
    have hstep : subWBGo trig repl 0 prevc (x :: (run ++ rest)) =
        x :: subWBGo trig repl 0 (some x) (run ++ rest) := by
      cases hst : stripCI trig (x :: (run ++ rest)) with
      | none => simp [subWBGo, hst]
      | some rem2 => simp [subWBGo, hst, hb]
    rw [List.cons_append, hstep,
      subWBGo_wordrun trig repl run (some x) rest
        (fun y hy => hw y (List.mem_cons_of_mem x hy)) hx,
      afterPrev_cons]
    rfl

end Rodin

namespace Rodin

theorem dropWhile_length_le (p : Char → Bool) :
    ∀ (l : List Char), (l.dropWhile p).length ≤ l.length
  | [] => Nat.le_refl 0
  | x :: xs => by
    by_cases h : p x
    · rw [List.dropWhile_cons_of_pos h]
      exact Nat.le_succ_of_le (dropWhile_length_le p xs)
    · rw [List.dropWhile_cons_of_neg h]


theorem subWBGo_eq_specWordSub (t0 : Char) (ts repl : List Char)
    (hword : ∀ x ∈ t0 :: ts, isWordChar x = true) :
    ∀ (n : Nat) (s : List Char), s.length ≤ n → ∀ (prevc : Option Char),
      (∀ c, s.head? = some c → isWordChar c = true → wOpt prevc = false) →
      subWBGo (t0 :: ts) repl 0 prevc s = specWordSub (t0 :: ts) repl s := by
  intro n
  induction n with
  | zero =>
    intro s hs prevc _
    have hnil : s = [] := List.eq_nil_of_length_eq_zero (Nat.le_zero.mp hs)
    subst hnil
    simp [subWBGo, specWordSub]
  | succ n ih =>
    intro s hs prevc hinv
    cases s with
    | nil => simp [subWBGo, specWordSub]
    | cons c rest =>
      have hrn : rest.length ≤ n := by
        simp only [List.length_cons] at hs; omega
      cases hc : isWordChar c with
      | false =>
        have hst : stripCI (t0 :: ts) (c :: rest) = none := by
          rw [stripCI,
            lowerChar_beq_word (hword t0 (List.mem_cons_self t0 ts)) hc]
          rfl
        have hred : subWBGo (t0 :: ts) repl 0 prevc (c :: rest) =
            c :: subWBGo (t0 :: ts) repl 0 (some c) rest := by
          simp [subWBGo, hst]
        rw [hred, specWordSub, if_neg (by rw [hc]; simp)]
        congr 1
        exact ih rest hrn (some c) (fun c' _ _ => by
          show isWordChar c = false
          exact hc)
      | true =>
        have hpv : wOpt prevc = false := hinv c rfl hc
        have hrest : rest.takeWhile isWordChar ++ rest.dropWhile isWordChar
            = rest := List.takeWhile_append_dropWhile isWordChar rest
        have htail : rest = rest.takeWhile isWordChar ++
            rest.dropWhile isWordChar := hrest.symm
        have htokw : ∀ x ∈ c :: rest.takeWhile isWordChar,
            isWordChar x = true := by
          intro x hx
          rcases List.mem_cons.mp hx with he | he
          · rw [he]; exact hc
          · exact List.mem_takeWhile_imp he
        have hremhead : ∀ x, (rest.dropWhile isWordChar).head? = some x →
            isWordChar x = false :=
          fun x hx => head_dropWhile_not isWordChar rest x hx
        have hsplit : c :: rest = (c :: rest.takeWhile isWordChar) ++
            rest.dropWhile isWordChar := by
          rw [List.cons_append, hrest]
        have hreml : (rest.dropWhile isWordChar).length ≤ n :=
          le_trans (dropWhile_length_le isWordChar rest) hrn
        have hinvrem : ∀ c', (rest.dropWhile isWordChar).head? = some c' →
            isWordChar c' = true →
            wOpt (afterPrev (rest.takeWhile isWordChar) (some c)) = false := by
          intro c' h1 h2
          rw [hremhead c' h1] at h2
          exact Bool.noConfusion h2
        by_cases heq : pyLower (c :: rest.takeWhile isWordChar) =
            pyLower (t0 :: ts)
        · have hlen : (c :: rest.takeWhile isWordChar).length =
              (t0 :: ts).length := by
            have hl := congrArg List.length heq
            simpa [pyLower] using hl
          have hlen2 : (rest.takeWhile isWordChar).length = ts.length := by
            simp only [List.length_cons] at hlen
            omega
          have hstrip : stripCI (t0 :: ts) (c :: rest) =
              some (rest.dropWhile isWordChar) := by
            rw [hsplit]
            exact stripCI_of_pyLower_eq _ heq
          have hbs : isBoundary prevc (some c) = true := by
            unfold isBoundary
            rw [hpv]
            simp [wOpt, hc]
          have htake : List.take ts.length rest =
              rest.takeWhile isWordChar := by
            conv_lhs => rw [htail]
            exact List.take_left' hlen2
          have hbe : isBoundary (c :: List.take ts.length rest).getLast?
              (rest.dropWhile isWordChar).head? = true := by
            rw [htake]
            obtain ⟨y, hy1, hy2⟩ := getLast?_word htokw (by simp)
            rw [hy1]
            cases hh : (rest.dropWhile isWordChar).head? with
            | none => unfold isBoundary; simp [wOpt, hy2]
            | some z => unfold isBoundary; simp [wOpt, hy2, hremhead z hh]
          have hred : subWBGo (t0 :: ts) repl 0 prevc (c :: rest) =
              repl ++ subWBGo (t0 :: ts) repl ts.length (some c) rest := by
            simp [subWBGo, hstrip, hbs, hbe]
          have hwalk : subWBGo (t0 :: ts) repl ts.length (some c) rest =
              subWBGo (t0 :: ts) repl 0
                (afterPrev (rest.takeWhile isWordChar) (some c))
                (rest.dropWhile isWordChar) := by
            conv_lhs => rw [htail, ← hlen2]
            exact subWBGo_skip (t0 :: ts) repl (rest.takeWhile isWordChar)
              (some c) (rest.dropWhile isWordChar)
          have hspec : specWordSub (t0 :: ts) repl (c :: rest) =
              repl ++ specWordSub (t0 :: ts) repl
                (rest.dropWhile isWordChar) := by
            rw [specWordSub, if_pos hc, if_pos heq]
          rw [hred, hwalk, hspec]
          congr 1
          exact ih (rest.dropWhile isWordChar) hreml _ hinvrem
        · have hstep : subWBGo (t0 :: ts) repl 0 prevc (c :: rest) =
              c :: subWBGo (t0 :: ts) repl 0 (some c) rest := by
            cases hst : stripCI (t0 :: ts) (c :: rest) with
            | none => simp [subWBGo, hst]
            | some rem2 =>
              obtain ⟨m, hm1, hm2, hm3⟩ := stripCI_some hst
              have hmw : ∀ x ∈ m, isWordChar x = true :=
                word_of_pyLower_eq hm3 hword
              have hmne : m ≠ [] := by
                intro h0; rw [h0] at hm2; simp at hm2
              have hcomp : m ++ rem2 = (c :: rest.takeWhile isWordChar) ++
                  rest.dropWhile isWordChar := by
                rw [← hm1, hsplit]
              have hz : ∃ z, rem2.head? = some z ∧ isWordChar z = true := by
                rcases List.append_eq_append_iff.mp hcomp with
                  ⟨a, ha1, ha2⟩ | ⟨k, hk1, hk2⟩
                · cases a with
                  | nil =>
                    exfalso
                    rw [List.append_nil] at ha1
                    rw [← ha1] at hm3
                    exact heq hm3
                  | cons z zs =>
                    refine ⟨z, ?_, ?_⟩
                    · rw [ha2]; rfl
                    · have hzm : z ∈ c :: rest.takeWhile isWordChar := by
                        rw [ha1]
                        exact List.mem_append_right m (List.mem_cons_self z zs)
                      exact htokw z hzm
                · cases k with
                  | nil =>
                    exfalso
                    rw [List.append_nil] at hk1
                    rw [hk1] at hm3
                    exact heq hm3
                  | cons z zs =>
                    exfalso
                    have hzw : isWordChar z = true := by
                      apply hmw
                      rw [hk1]
                      exact List.mem_append_right _ (List.mem_cons_self z zs)
                    have hzz : (rest.dropWhile isWordChar).head? = some z := by
                      rw [hk2]; rfl
                    rw [hremhead z hzz] at hzw
                    exact Bool.noConfusion hzw
              obtain ⟨z, hz1, hz2⟩ := hz
              obtain ⟨mh, mt, rfl⟩ : ∃ mh mt, m = mh :: mt := by
                cases m with
                | nil => exact absurd rfl hmne
                | cons mh mt => exact ⟨mh, mt, rfl⟩
              have hm1' : c = mh ∧ rest = mt ++ rem2 := by
                rw [List.cons_append] at hm1
                exact ⟨(List.cons.injEq _ _ _ _ ▸ hm1).1,
                  (List.cons.injEq _ _ _ _ ▸ hm1).2⟩
              have hmtlen : mt.length = ts.length := by
                simp only [List.length_cons] at hm2
                omega
              have htakem : List.take ts.length rest = mt := by
                rw [hm1'.2, ← hmtlen]
                exact List.take_left mt rem2
              have hbe : isBoundary (c :: List.take ts.length rest).getLast?
                  rem2.head? = false := by
                rw [htakem, hz1]
                have hcm : c :: mt = mh :: mt := by rw [hm1'.1]
                rw [hcm]
                obtain ⟨y, hy1, hy2⟩ := getLast?_word hmw (by simp)
                rw [hy1]
                unfold isBoundary
                simp [wOpt, hy2, hz2]
              simp [subWBGo, hst, hbe]
          have hwalk : subWBGo (t0 :: ts) repl 0 (some c) rest =
              rest.takeWhile isWordChar ++ subWBGo (t0 :: ts) repl 0
                (afterPrev (rest.takeWhile isWordChar) (some c))
                (rest.dropWhile isWordChar) := by
            conv_lhs => rw [htail]
            exact subWBGo_wordrun (t0 :: ts) repl (rest.takeWhile isWordChar)
              (some c) (rest.dropWhile isWordChar)
              (fun y hy => List.mem_takeWhile_imp hy) hc
          have hspec : specWordSub (t0 :: ts) repl (c :: rest) =
              (c :: rest.takeWhile isWordChar) ++
                specWordSub (t0 :: ts) repl (rest.dropWhile isWordChar) := by
            rw [specWordSub, if_pos hc, if_neg heq]
          rw [hstep, hwalk, hspec, List.cons_append]
          congr 2
          exact ih (rest.dropWhile isWordChar) hreml _ hinvrem

/-- `re.sub` of the word-boundary-delimited, case-folded literal trigger
pattern, for a trigger made of word characters, is exactly whole-word-run
substitution. -/
theorem subWB_eq_specWordSub (trig repl s : List Char)
    (hne : trig ≠ []) (hword : ∀ x ∈ trig, isWordChar x = true) :
    subWB trig repl s = specWordSub trig repl s := by
  cases trig with
  | nil => exact absurd rfl hne
  | cons t0 ts =>
    show subWBGo (t0 :: ts) repl 0 none s = _
    exact subWBGo_eq_specWordSub t0 ts repl hword s.length s (Nat.le_refl _)
      none (fun _ _ _ => rfl)

end Rodin

namespace Rodin

theorem foldl_subWB_eq_spec :
    ∀ (l : List (String × String)) (text : String),
      (∀ p ∈ l, p.1.data ≠ [] ∧ ∀ x ∈ p.1.data, isWordChar x = true) →
      l.foldl (fun result p =>
        String.mk (subWB p.1.data p.2.data result.data)) text =
      l.foldl (fun result p =>
        String.mk (specWordSub p.1.data p.2.data result.data)) text
  | [], _, _ => rfl
  | p :: ps, text, h => by
    rw [List.foldl_cons, List.foldl_cons,
      subWB_eq_specWordSub p.1.data p.2.data text.data
        (h p (List.mem_cons_self p ps)).1 (h p (List.mem_cons_self p ps)).2]
    exact foldl_subWB_eq_spec ps _ (fun q hq => h q (List.mem_cons_of_mem p hq))

/-- C8: `apply` substitutes every stored trigger wherever it occurs as a
whole word, case-insensitively, emitting the stored replacement verbatim:
the empty dictionary is the identity; over word-character triggers each
pass is exactly whole-word-run substitution, applied in mapping iteration
order; and with `tesla ↦ Tesla`, `"I said TESLA yesterday"` becomes
`"I said Tesla yesterday"` (the replacement's casing wins). -/
theorem apply_whole_word_case_insensitive :
    (∀ text : String, PersonalDictionary.apply [] text = text) ∧
    (∀ (m : List (String × String)) (text : String),
      (∀ p ∈ m, p.1.data ≠ [] ∧ ∀ x ∈ p.1.data, isWordChar x = true) →
      PersonalDictionary.apply m text =
        m.foldl (fun result p =>
          String.mk (specWordSub p.1.data p.2.data result.data)) text) ∧
    PersonalDictionary.apply [("tesla", "Tesla")] "I said TESLA yesterday" =
      "I said Tesla yesterday" := by
  refine ⟨fun text => rfl, ?_, by decide⟩
  intro m text hm
  unfold PersonalDictionary.apply
  cases m with
  | nil => rfl
  | cons p ps =>
    rw [if_neg (by simp)]
    exact foldl_subWB_eq_spec (p :: ps) text hm

/-- C8 witness: the single-entry dictionary `tesla ↦ Tesla` on the concrete
sentence. -/
theorem apply_whole_word_witness :
    PersonalDictionary.apply [("tesla", "Tesla")] "I said TESLA yesterday" =
      [("tesla", "Tesla")].foldl (fun result p =>
        String.mk (specWordSub p.1.data p.2.data result.data))
        "I said TESLA yesterday" :=
  apply_whole_word_case_insensitive.2.1 [("tesla", "Tesla")]
    "I said TESLA yesterday"
    (by
      intro p hp
      simp only [List.mem_singleton] at hp
      subst hp
      exact ⟨by decide, by decide⟩)

/-- C7: `expand` replaces the whole input wholesale when its trimmed,
lowercased text is exactly a stored trigger, bypassing the word-boundary
scan; otherwise it performs case-insensitive whole-word substitution of
every stored trigger; with `sig ↦ "Best, Jamie"`, `"  sig  "` becomes
`"Best, Jamie"` and `"please sig now"` becomes `"please Best, Jamie now"`. -/
theorem expand_exact_match_then_word_boundary :
    (∀ (snips : List (String × String)) (text e : String),
      List.lookup (String.mk (pyLower (pyStrip text.data))) snips = some e →
      SnippetExpander.expand snips text = e) ∧
    (∀ (snips : List (String × String)) (text : String),
      snips ≠ [] →
      List.lookup (String.mk (pyLower (pyStrip text.data))) snips = none →
      (∀ p ∈ snips, p.1.data ≠ [] ∧ ∀ x ∈ p.1.data, isWordChar x = true) →
      SnippetExpander.expand snips text =
        snips.foldl (fun result p =>
          String.mk (specWordSub p.1.data p.2.data result.data)) text) ∧
    SnippetExpander.expand [("sig", "Best, Jamie")] "  sig  " =
      "Best, Jamie" ∧
    SnippetExpander.expand [("sig", "Best, Jamie")] "please sig now" =
      "please Best, Jamie now" := by
  refine ⟨?_, ?_, by decide, by decide⟩
  · intro snips text e hl
    unfold SnippetExpander.expand
    have hne : snips.isEmpty = false := by
      cases snips with
      | nil => exact absurd hl (by simp [List.lookup])
      | cons p ps => rfl
    rw [if_neg (by simp [hne]), hl]
  · intro snips text hne hl hw
    unfold SnippetExpander.expand
    have hne' : snips.isEmpty = false := by
      cases snips with
      | nil => exact absurd rfl hne
      | cons p ps => rfl
    rw [if_neg (by simp [hne']), hl]
    exact foldl_subWB_eq_spec snips text hw

/-- C7 witness: the single snippet `sig ↦ "Best, Jamie"`, exercising both
the exact-match branch (on a differently-cased, padded input) and the
word-boundary branch. -/
theorem expand_exact_match_witness :
    SnippetExpander.expand [("sig", "Best, Jamie")] " SIG " =
      "Best, Jamie" ∧
    SnippetExpander.expand [("sig", "Best, Jamie")] "please sig now" =
      [("sig", "Best, Jamie")].foldl (fun result p =>
        String.mk (specWordSub p.1.data p.2.data result.data))
        "please sig now" :=
  ⟨expand_exact_match_then_word_boundary.1 [("sig", "Best, Jamie")]
     " SIG " "Best, Jamie" (by decide),
   expand_exact_match_then_word_boundary.2.1 [("sig", "Best, Jamie")]
     "please sig now" (by decide) (by decide)
     (by
       intro p hp
       simp only [List.mem_singleton] at hp
       subst hp
       exact ⟨by decide, by decide⟩)⟩

end Rodin

namespace Rodin

/-! ### Voice commands (`VoiceCommandProcessor`)

Each `VOICE_COMMANDS` pattern is `^…$`-anchored and compiled with
`re.IGNORECASE`.  The embedding renders each pattern's syntax tree in a
small regex AST; `RE.run` lists the possible (remainder, group-1 capture)
outcomes in Python's backtracking order (alternation left first,
quantifiers greedy), so the head of the fully-consuming outcomes is the
match Python reports.  Because every pattern ends in `$` and the input is
stripped, a match consumes the whole string. -/

/-- Regex fragment used by the command table: case-insensitive literals,
concatenation, alternation `(?:a|b)`, option `?`, greedy `+` of a character
class, and the capture group `( … )`. -/
inductive RE where
  | lit (s : List Char)
  | seq (a b : RE)
  | alt (a b : RE)
  | opt (a : RE)
  | plus (p : Char → Bool)
  | grp (a : RE)

/-- All outcomes of matching `r` at the front of `s`, as
(remainder, group-1 capture) pairs in backtracking order. -/
def RE.run : RE → List Char → List (List Char × Option (List Char))
  | .lit t, s =>
    match stripCI t s with
    | some r => [(r, none)]
    | none => []
  | .seq a b, s =>
    (RE.run a s).flatMap fun rc =>
      (RE.run b rc.1).map fun rc2 => (rc2.1, rc.2 <|> rc2.2)
  | .alt a b, s => RE.run a s ++ RE.run b s
  | .opt a, s => RE.run a s ++ [(s, none)]
  | .plus p, s =>
    (List.range (s.takeWhile p).length).map
      (fun j => (s.drop ((s.takeWhile p).length - j), none))
  | .grp a, s =>
    (RE.run a s).map fun rc => (rc.1, some (s.take (s.length - rc.1.length)))

/-- A literal word of the pattern. -/
def rlit (s : String) : RE := .lit s.data

/-- `\s+`. -/
def wsRE : RE := .plus pyIsSpace

/-- `\.?`. -/
def dotOpt : RE := .opt (.lit ['.'])

/-- The rule's third component: `None`, a number, or `"match"` (read the
numeric capture group). -/
inductive CmdArg where
  | noArg
  | num (n : Nat)
  | fromMatch
deriving DecidableEq, Repr

/-- The fixed ordered rule table (patterns without their redundant `^`/`$`
anchors; anchoring is applied by the matcher). -/
def VOICE_COMMANDS : List (RE × String × CmdArg) :=
  [(.seq (.alt (rlit "delete") (.alt (rlit "scratch") (rlit "cancel")))
     (.seq wsRE (.seq (rlit "that") dotOpt)), "delete_last", .noArg),
   (.seq (.alt (rlit "delete") (rlit "remove"))
     (.seq wsRE (.seq (.opt (.seq (rlit "the") wsRE))
       (.seq (rlit "last") (.seq wsRE (.seq (rlit "word") dotOpt))))),
     "delete_words", .num 1),
   (.seq (.alt (rlit "delete") (rlit "remove"))
     (.seq wsRE (.seq (.opt (.seq (rlit "the") wsRE))
       (.seq (rlit "last") (.seq wsRE (.seq (.grp (.plus Char.isDigit))
         (.seq wsRE (.seq (rlit "word") (.seq (.opt (rlit "s")) dotOpt)))))))),
     "delete_words", .fromMatch),
   (.seq (.alt (rlit "backspace")
      (.seq (rlit "back") (.seq wsRE (rlit "space")))) dotOpt,
     "backspace", .num 1),
   (.seq (rlit "undo") (.seq (.opt (.seq wsRE (rlit "that"))) dotOpt),
     "undo", .noArg),
   (.seq (rlit "new") (.seq wsRE (.seq (rlit "line") dotOpt)),
     "newline", .num 1),
   (.seq (rlit "new") (.seq wsRE (.seq (rlit "paragraph") dotOpt)),
     "newline", .num 2),
   (.seq (.opt (.seq (rlit "press") wsRE)) (.seq (rlit "enter") dotOpt),
     "newline", .num 1),
   (.seq (.opt (.seq (rlit "press") wsRE)) (.seq (rlit "tab") dotOpt),
     "tab", .num 1),
   (.seq (rlit "select") (.seq wsRE (.seq (rlit "all") dotOpt)),
     "select_all", .noArg),
   (.seq (rlit "copy") (.seq (.opt (.seq wsRE (rlit "that"))) dotOpt),
     "copy", .noArg),
   (.seq (rlit "paste") dotOpt, "paste", .noArg),
   (.seq (rlit "cut") (.seq (.opt (.seq wsRE (rlit "that"))) dotOpt),
     "cut", .noArg)]

/-- `int(...)` on a captured digit string. -/
def digitsToNat (ds : List Char) : Nat :=
  ds.foldl (fun acc c => acc * 10 + (c.toNat - 48)) 0

/-- `pattern.match(text)` for the `^…$`-anchored patterns: the first
fully-consuming outcome in backtracking order, or `none`. -/
def reFirstFull (r : RE) (s : List Char) :
    Option (List Char × Option (List Char)) :=
  ((RE.run r s).filter (fun rc => rc.1.isEmpty)).head?

/-- The `for pattern, action, arg in self._compiled_patterns` loop of
`detect_command`: first match wins; `"match"` args read the numeric group;
the remaining text after the match is trimmed (for a full match, empty). -/
def detectLoop (t : List Char) :
    List (RE × String × CmdArg) → Option (String × Option Nat) × String
  | [] => (none, String.mk t)
  | (pat, action, arg) :: rest =>
    match reFirstFull pat t with
    | some rc =>
      let actualArg : Option Nat :=
        match arg, rc.2 with
        | .fromMatch, some ds => some (digitsToNat ds)
        | .fromMatch, none => none
        | .num k, _ => some k
        | .noArg, _ => none
      ((action, actualArg), String.mk (pyStrip rc.1))
    | none => detectLoop t rest

/-- `VoiceCommandProcessor.detect_command`: strip the input, then scan the
table top-down. -/
def VoiceCommandProcessor.detect_command (text : String) :
    Option (String × Option Nat) × String :=
  detectLoop (pyStrip text.data) VOICE_COMMANDS

end Rodin

namespace Rodin

theorem reFirstFull_empty {r : RE} {s : List Char}
    {rc : List Char × Option (List Char)} (h : reFirstFull r s = some rc) :
    rc.1 = [] := by
  unfold reFirstFull at h
  cases hfl : (RE.run r s).filter (fun rc => rc.1.isEmpty) with
  | nil => rw [hfl] at h; exact Option.noConfusion h
  | cons x xs =>
    rw [hfl] at h
    have hxr : x = rc := Option.some.inj h
    have hx : x ∈ (RE.run r s).filter (fun rc => rc.1.isEmpty) := by
      rw [hfl]; exact List.mem_cons_self x xs
    have hp := (List.mem_filter.mp hx).2
    rw [hxr] at hp
    simpa using hp

theorem detectLoop_spec (t : List Char) :
    ∀ (table : List (RE × String × CmdArg)),
      (∀ cmd rest, detectLoop t table = (some cmd, rest) → rest = "") ∧
      ((detectLoop t table).1 = none → (detectLoop t table).2 = String.mk t)
  | [] => ⟨fun _ _ h => absurd (congrArg Prod.fst h) (by simp [detectLoop]),
      fun _ => rfl⟩
  | (pat, action, arg) :: rest => by
    cases hm : reFirstFull pat t with
    | some rc =>
      constructor
      · intro cmd r h
        have hr : r = String.mk (pyStrip rc.1) := by
          have := congrArg Prod.snd h
          simpa [detectLoop, hm] using this.symm
        rw [hr, reFirstFull_empty hm]
        rfl
      · intro h
        exfalso
        have : (detectLoop t ((pat, action, arg) :: rest)).1.isSome := by
          simp [detectLoop, hm]
        rw [h] at this
        simp at this
    | none =>
      have hred : detectLoop t ((pat, action, arg) :: rest) =
          detectLoop t rest := by
        simp [detectLoop, hm]
      rw [hred]
      exact detectLoop_spec t rest

/-- C6 counterexample: on `"undo that write hello"` no rule matches (every
pattern is anchored at the end of the utterance), so `detect_command`
returns no command and the whole trimmed text — not the command `undo` with
residual `"write hello"` the claim asserts. -/
theorem detect_command_undo_counterexample :
    VoiceCommandProcessor.detect_command "undo that write hello" =
      (none, "undo that write hello") ∧
    VoiceCommandProcessor.detect_command "undo that write hello" ≠
      (some ("undo", none), "write hello") := by
  constructor
  · decide
  · decide

/-- C6 (amended): `detect_command` trims its input and evaluates the fixed
rule table top-down, returning on the first pattern that matches; since
every pattern is anchored at both ends, a command match consumes the whole
trimmed utterance and the residual is always `""`; `"delete that"` yields
`delete_last` with no argument and residual `""`; `"undo that write
hello"` matches no rule and is returned as dictation text unchanged; when
no pattern matches, the trimmed original text is returned with no
command. -/
theorem detect_command_anchored :
    VoiceCommandProcessor.detect_command "delete that" =
      (some ("delete_last", none), "") ∧
    VoiceCommandProcessor.detect_command "undo that write hello" =
      (none, "undo that write hello") ∧
    (∀ (text : String) (cmd : String × Option Nat) (rest : String),
      VoiceCommandProcessor.detect_command text = (some cmd, rest) →
      rest = "") ∧
    (∀ text : String,
      (VoiceCommandProcessor.detect_command text).1 = none →
      (VoiceCommandProcessor.detect_command text).2 =
        String.mk (pyStrip text.data)) := by
  refine ⟨by decide, by decide, ?_, ?_⟩
  · intro text cmd rest h
    exact (detectLoop_spec (pyStrip text.data) VOICE_COMMANDS).1 cmd rest h
  · intro text h
    exact (detectLoop_spec (pyStrip text.data) VOICE_COMMANDS).2 h

/-- C6 witness: the empty-residual law applied to a concrete matching
utterance and the pass-through law applied to a concrete non-command. -/
theorem detect_command_anchored_witness :
    ("" : String) = "" ∧
    (VoiceCommandProcessor.detect_command "xyzzy").2 =
      String.mk (pyStrip "xyzzy".data) :=
  ⟨detect_command_anchored.2.2.1 "delete that" ("delete_last", none) ""
     (by decide),
   detect_command_anchored.2.2.2 "xyzzy" (by decide)⟩

end Rodin

namespace Rodin

/-! ### Transcription history and stats (`TranscriptionDB`)

The model keeps the row table (append-only; `lastrowid` is the new length)
and the `word_counts` aggregate.  SQLite compares the TEXT `timestamp`
column byte-wise, which `strLe`/`strLt` mirror for the ASCII ISO-8601
strings the code stores.  Of the `Stats` aggregate the four totals are
modelled; the derived presentation fields (typing-time estimate, most
active hour/day, top lists) are out of the claims' scope. -/

/-- A row of the `transcriptions` table. -/
structure TranscriptionRow where
  timestamp : String
  raw_text : String
  edited_text : Option String
  duration_seconds : Nat
  word_count : Nat
  char_count : Nat
  app_bundle_id : Option String
  app_name : Option String
  preset_used : Option String
deriving DecidableEq, Repr

/-- The totals of the `Stats` aggregate. -/
structure StatsTotals where
  total_transcriptions : Nat
  total_words : Nat
  total_chars : Nat
  total_duration : Nat
deriving DecidableEq, Repr

/-- `str.split()` with no separator: whitespace runs split, empty tokens
dropped. -/
def pySplit (s : List Char) : List (List Char) :=
  (s.foldr (fun c acc =>
    if pyIsSpace c then [] :: acc
    else match acc with
      | [] => [[c]]
      | w :: ws => (c :: w) :: ws) []).filter (fun w => !w.isEmpty)

/-- The characters of the punctuation-strip set `.,!?;:"'()[]` plus the two
curly braces (written by code point). -/
def isStripPunct (c : Char) : Bool :=
  c == '.' || c == ',' || c == '!' || c == '?' || c == ';' || c == ':' ||
  c == '"' || c == Char.ofNat 39 || c == '(' || c == ')' ||
  c == '[' || c == ']' || c == Char.ofNat 123 || c == Char.ofNat 125

/-- `str.strip(...)` with an explicit character class. -/
def stripEnds (p : Char → Bool) (s : List Char) : List Char :=
  ((s.dropWhile p).reverse.dropWhile p).reverse

/-- `word.lower().strip(".,!?;:\"'()[]{}").strip()` from `record`
(the braces of the strip set are written by code point above). -/
def cleanWord (w : List Char) : List Char :=
  stripEnds pyIsSpace (stripEnds isStripPunct (pyLower w))

/-- The `ON CONFLICT(word) DO UPDATE SET count = count + 1` upsert. -/
def bumpWord (w : String) (l : List (String × Nat)) : List (String × Nat) :=
  if (List.lookup w l).isSome then
    l.map (fun p => if p.1 == w then (p.1, p.2 + 1) else p)
  else
    l ++ [(w, 1)]

/-- `text_for_counts = edited_text or raw_text`: Python `or` falls through
on `None` and on the falsy empty string. -/
def textForCounts (raw_text : String) (edited_text : Option String) : String :=
  match edited_text with
  | some e => if e = "" then raw_text else e
  | none => raw_text

/-- `TranscriptionDB.record`: insert one immutable row (counts from the
edited text when truthy, else the raw text) and upsert the per-word
counters for the cleaned words of length at least 3; returns the updated
tables and the new row id. -/
def TranscriptionDB.record (db : List TranscriptionRow)
    (wc : List (String × Nat)) (nowIso raw_text : String)
    (edited_text : Option String) (duration_seconds : Nat)
    (bid an pu : Option String) :
    (List TranscriptionRow × List (String × Nat)) × Nat :=
  let text := textForCounts raw_text edited_text
  let words := pySplit text.data
  let row : TranscriptionRow :=
    ⟨nowIso, raw_text, edited_text, duration_seconds, words.length,
      text.data.length, bid, an, pu⟩
  let wc' := words.foldl (fun acc w =>
    let wl := cleanWord w
    if 3 ≤ wl.length then bumpWord (String.mk wl) acc else acc) wc
  ((db ++ [row], wc'), db.length + 1)

/-- The `WHERE` filter of `get_stats`: `timestamp >= since` (inclusive) and
`timestamp < until` (exclusive), each only when given. -/
def TranscriptionDB.inRange (lo hi : Option String) (ts : String) : Bool :=
  (match lo with | none => true | some a => strLe a ts) &&
  (match hi with | none => true | some b => strLt ts b)

/-- The totals block of `TranscriptionDB.get_stats`. -/
def TranscriptionDB.get_stats (db : List TranscriptionRow)
    (lo hi : Option String) : StatsTotals :=
  let rows := db.filter (fun r => TranscriptionDB.inRange lo hi r.timestamp)
  ⟨rows.length, (rows.map TranscriptionRow.word_count).sum,
   (rows.map TranscriptionRow.char_count).sum,
   (rows.map TranscriptionRow.duration_seconds).sum⟩

/-- `TranscriptionDB.get_stats_today`: `get_stats` over `[midnight,
next midnight)`; the two bounds are the clock values the method computes. -/
def TranscriptionDB.get_stats_today (db : List TranscriptionRow)
    (todayStart tomorrowStart : String) : StatsTotals :=
  TranscriptionDB.get_stats db (some todayStart) (some tomorrowStart)

end Rodin

namespace Rodin

/-- C9: `record(raw="hello world", edited=None, duration=2.0)` adds exactly
one row, raising `total_transcriptions` by 1 and `total_words` by 2 in
`get_stats_today` (the insertion instant lies in today's half-open range),
while any `get_stats` query over a half-open `[since, until)` range that
excludes the insertion instant reports totals unchanged. -/
theorem record_stats_today (db : List TranscriptionRow)
    (wc : List (String × Nat)) (nowIso todayStart tomorrowStart : String)
    (bid an pu : Option String)
    (h1 : strLe todayStart nowIso = true)
    (h2 : strLt nowIso tomorrowStart = true) :
    (TranscriptionDB.get_stats_today
        (TranscriptionDB.record db wc nowIso "hello world" none 2 bid an pu).1.1
        todayStart tomorrowStart).total_transcriptions =
      (TranscriptionDB.get_stats_today db todayStart
        tomorrowStart).total_transcriptions + 1 ∧
    (TranscriptionDB.get_stats_today
        (TranscriptionDB.record db wc nowIso "hello world" none 2 bid an pu).1.1
        todayStart tomorrowStart).total_words =
      (TranscriptionDB.get_stats_today db todayStart
        tomorrowStart).total_words + 2 ∧
    (∀ lo hi : Option String,
      TranscriptionDB.inRange lo hi nowIso = false →
      TranscriptionDB.get_stats
        (TranscriptionDB.record db wc nowIso "hello world" none 2 bid an pu).1.1
        lo hi = TranscriptionDB.get_stats db lo hi) := by
  have hdb : (TranscriptionDB.record db wc nowIso "hello world" none 2
      bid an pu).1.1 =
      db ++ [⟨nowIso, "hello world", none, 2, 2, 11, bid, an, pu⟩] := rfl
  have hrow : TranscriptionDB.inRange (some todayStart) (some tomorrowStart)
      nowIso = true := by
    show (strLe todayStart nowIso && strLt nowIso tomorrowStart) = true
    rw [h1, h2]
    rfl
  refine ⟨?_, ?_, ?_⟩
  · unfold TranscriptionDB.get_stats_today TranscriptionDB.get_stats
    rw [hdb, List.filter_append]
    simp [hrow]
  · unfold TranscriptionDB.get_stats_today TranscriptionDB.get_stats
    rw [hdb, List.filter_append]
    simp [hrow]
  · intro lo hi h
    unfold TranscriptionDB.get_stats
    rw [hdb, List.filter_append]
    simp [h]

/-- C9 witness: one concrete insertion inside a concrete day, and one
concrete range that excludes it. -/
theorem record_stats_today_witness :
    (TranscriptionDB.get_stats_today
        (TranscriptionDB.record [] [] "2024-05-06T12:00:00" "hello world"
          none 2 none none none).1.1
        "2024-05-06T00:00:00" "2024-05-07T00:00:00").total_transcriptions =
      (TranscriptionDB.get_stats_today ([] : List TranscriptionRow)
        "2024-05-06T00:00:00" "2024-05-07T00:00:00").total_transcriptions + 1 ∧
    TranscriptionDB.get_stats
        (TranscriptionDB.record [] [] "2024-05-06T12:00:00" "hello world"
          none 2 none none none).1.1
        (some "2024-05-01T00:00:00") (some "2024-05-02T00:00:00") =
      TranscriptionDB.get_stats ([] : List TranscriptionRow)
        (some "2024-05-01T00:00:00") (some "2024-05-02T00:00:00") :=
  ⟨(record_stats_today [] [] "2024-05-06T12:00:00" "2024-05-06T00:00:00"
      "2024-05-07T00:00:00" none none none (by decide) (by decide)).1,
   (record_stats_today [] [] "2024-05-06T12:00:00" "2024-05-06T00:00:00"
      "2024-05-07T00:00:00" none none none (by decide) (by decide)).2.2
     (some "2024-05-01T00:00:00") (some "2024-05-02T00:00:00") (by decide)⟩

/-- C10: the stored `word_count`/`char_count` come from `edited_text` when
it is non-null and non-empty, and from `raw_text` otherwise — `edited_text
or raw_text` falls through on the falsy empty string, so the counts never
reflect an empty edited string while `raw_text` is non-empty. -/
theorem record_counts_from_edited_or_raw (db : List TranscriptionRow)
    (wc : List (String × Nat)) (nowIso raw_text : String)
    (edited_text : Option String) (duration_seconds : Nat)
    (bid an pu : Option String) :
    (∀ e : String, edited_text = some e → e ≠ "" →
      textForCounts raw_text edited_text = e) ∧
    (edited_text = none ∨ edited_text = some "" →
      textForCounts raw_text edited_text = raw_text) ∧
    (TranscriptionDB.record db wc nowIso raw_text edited_text
        duration_seconds bid an pu).1.1 =
      db ++ [⟨nowIso, raw_text, edited_text, duration_seconds,
        (pySplit (textForCounts raw_text edited_text).data).length,
        (textForCounts raw_text edited_text).data.length, bid, an, pu⟩] := by
  refine ⟨?_, ?_, rfl⟩
  · intro e he hne
    rw [he]
    show (if e = "" then raw_text else e) = e
    rw [if_neg hne]
  · intro h
    rcases h with h | h <;> rw [h] <;> rfl

/-- C10 witness: an empty edited string falls back to the raw text's
counts. -/
theorem record_counts_witness :
    textForCounts "hi there" (some "") = "hi there" ∧
    (TranscriptionDB.record [] [] "t0" "hi there" (some "") 1
        none none none).1.1 =
      [⟨"t0", "hi there", some "", 1, 2, 8, none, none, none⟩] := by
  constructor
  · exact (record_counts_from_edited_or_raw [] [] "t0" "hi there" (some "")
      1 none none none).2.1 (Or.inr rfl)
  · rw [(record_counts_from_edited_or_raw [] [] "t0" "hi there" (some "")
      1 none none none).2.2]
    rfl

end Rodin
